import Mathlib

/-!
# ason-maser: index construction and repository lookup

A shallow embedding of `index.go` (`buildIndex`), of `repository.go`
(`MangaRepository` and its accessors) and of `handleChapter` of `main.go`.

Conventions of the embedding

* Go `int` is `Int`. Every integer the code computes is a slice length or a
  stored identifier, so no arithmetic can overflow.
* Go slices are `List`s; a nil slice and an empty slice are both `[]`.
* A Go run-time panic (index out of range) is the `none` of `Option`.
* A Go `error` value is a `GoError`; a nil error is `Option.none` in an
  `Option GoError`, a failing call is `Except.error`.
* The file system and the JSON decoder are outside the repository. They are
  the two fields of `FileSystem`: what `ioutil.ReadDir` answers for a path
  and what `parseFile` answers for a file name.
* `log.Print` appends to the `logged` list carried by the state.
* Values are enough for everything but `GetAllMangas`, whose point is what it
  shares with its caller; for it the repository is laid out in a `Memory` of
  backing arrays, and `observe` reads the values back.
* `filepath.Join` belongs to the Go standard library. `Join` below models
  its Unix behaviour element by element (see `cleanChars`): the first
  non-empty argument and all that follow are joined with `/` and the result
  is cleaned lexically. Strings are compared character by character; the
  separator is ASCII, so this agrees with Go's byte-wise scan.
-/

namespace AsonMaser

/-! ## Go run-time primitives -/

/-- Go error values. -/
structure GoError where
  msg : String
deriving DecidableEq, Repr

/-- Go expression `xs[i]` for an `int` index: `none` is the index-out-of-range panic. -/
def sliceIndex {α : Type} (xs : List α) (i : Int) : Option α :=
  if 0 ≤ i ∧ i < (xs.length : Int) then xs[i.toNat]? else none

/-- Go statement `xs[i] = v` for a loop index: `none` is the index-out-of-range panic. -/
def sliceSet {α : Type} (xs : List α) (i : Nat) (v : α) : Option (List α) :=
  if i < xs.length then some (xs.set i v) else none

/-- Go expression `make([]int, n)`: a slice of `n` zeroes. -/
def makeInts (n : Nat) : List Int := List.replicate n 0

/-! ## `path/filepath` (Unix) -/

/-- Go `strings.Join(elems, "/")` on characters. -/
def joinSlash : List (List Char) → List Char
  | [] => []
  | [e] => e
  | e :: es => e ++ '/' :: joinSlash es

/-- Elements of a path: the pieces between `/` separators. -/
def splitSlash : List Char → List (List Char)
  | [] => [[]]
  | c :: cs =>
    if c = '/' then [] :: splitSlash cs
    else
      match splitSlash cs with
      | [] => [[c]]
      | e :: es => (c :: e) :: es

/-- One element of the scan of `filepath.Clean`. The state is the number `dd`
of leading `..` elements already written (the text before the `dotdot` mark
of the Go code) and the elements written after that mark, last one first.
Empty elements and `.` are dropped; `..` removes the last element after the
mark when there is one, is written and moves the mark when the path is not
rooted, and is dropped when the path is rooted; any other element is
written. -/
def cleanStep (rooted : Bool) (st : Nat × List (List Char)) (e : List Char) :
    Nat × List (List Char) :=
  if e = [] then st
  else if e = ['.'] then st
  else if e = ['.', '.'] then
    match st.2 with
    | _ :: below => (st.1, below)
    | [] => if rooted then st else (st.1 + 1, [])
  else (st.1, e :: st.2)

/-- Elements of the output buffer of `filepath.Clean`, first one first. -/
def cleanElems (st : Nat × List (List Char)) : List (List Char) :=
  List.replicate st.1 ['.', '.'] ++ st.2.reverse

/-- Text of the output buffer of `filepath.Clean`: a leading `/` when rooted,
the elements separated by `/`, and `.` when nothing was written. -/
def cleanRender (rooted : Bool) (st : Nat × List (List Char)) : List Char :=
  if rooted then '/' :: joinSlash (cleanElems st)
  else if cleanElems st = [] then ['.']
  else joinSlash (cleanElems st)

/-- Is the first byte of the path a separator. -/
def isRooted : List Char → Bool
  | c :: _ => c = '/'
  | [] => false

/-- Go `filepath.Clean` on Unix, on the characters of the path. -/
def cleanChars (path : List Char) : List Char :=
  if path = [] then ['.']
  else cleanRender (isRooted path) ((splitSlash path).foldl (cleanStep (isRooted path)) (0, []))

/-- Go `filepath.Join` on Unix, on characters: leading empty elements are
ignored, the rest is joined with `/` and cleaned; all empty gives the empty
string. -/
def joinChars (elem : List (List Char)) : List Char :=
  match elem.dropWhile (fun e => e = []) with
  | [] => []
  | e :: es => cleanChars (joinSlash (e :: es))

/-- An element that `filepath.Clean` writes as it is: not empty, not `.`, not
`..`, and without separator. -/
def isPlainElem (e : List Char) : Prop :=
  e ≠ [] ∧ e ≠ ['.'] ∧ e ≠ ['.', '.'] ∧ '/' ∉ e

/-- Invariant of the scan of `filepath.Clean`: a rooted path has no leading
`..`, and every element after the mark is plain. -/
def cleanInv (rooted : Bool) (st : Nat × List (List Char)) : Prop :=
  (rooted = true → st.1 = 0) ∧ ∀ e ∈ st.2, isPlainElem e

/-- Go `filepath.Clean` on Unix. -/
def Clean (path : String) : String := String.mk (cleanChars path.data)

/-- Go `filepath.Join` on Unix. -/
def Join (elem : List String) : String := String.mk (joinChars (elem.map String.data))

/-! ## `index.go` -/

/-- Go `os.FileInfo`, the two methods `buildIndex` calls. -/
structure FileInfo where
  Name : String
  IsDir : Bool
deriving DecidableEq, Repr

/-- The anonymous element type of `mangaInfo.Chapters` in `buildIndex`. -/
structure chapterInfo where
  Name : String
  Dir : String
  Pages : List String
deriving DecidableEq, Repr

/-- The local type `mangaInfo` of `buildIndex`: a decoded `.mangainfo` file. -/
structure mangaInfo where
  Name : String
  Chapters : List chapterInfo
deriving DecidableEq, Repr

structure MangaInfo where
  ID : Int
  Name : String
  ChapterIDs : List Int
deriving DecidableEq, Repr

structure ChapterInfo where
  ID : Int
  MangaID : Int
  Name : String
  PageIDs : List Int
deriving DecidableEq, Repr

structure PageInfo where
  ID : Int
  ChapterID : Int
  Path : String
deriving DecidableEq, Repr

/-- Go zero value `MangaInfo{}`. -/
def MangaInfo.zero : MangaInfo := { ID := 0, Name := "", ChapterIDs := [] }

/-- Go zero value `ChapterInfo{}`. -/
def ChapterInfo.zero : ChapterInfo := { ID := 0, MangaID := 0, Name := "", PageIDs := [] }

/-- Go zero value `PageInfo{}`. -/
def PageInfo.zero : PageInfo := { ID := 0, ChapterID := 0, Path := "" }

/-- The world outside the program: the answer of `ioutil.ReadDir` for a
directory path, and the answer of `parseFile` (open the file, decode its
JSON) for a file name. -/
structure FileSystem where
  ReadDir : String → Except GoError (List FileInfo)
  parseFile : String → Except GoError mangaInfo

/-- Loop `for j, pg := range ch.Pages` of `buildIndex` (lines 53-61), from
index `j` on. The state is `ci.PageIDs` and `pis`. -/
def pagesLoop (dir chDir : String) (ciID : Int) :
    Nat → List String → List Int → List PageInfo → Option (List Int × List PageInfo)
  | _, [], pageIDs, pis => some (pageIDs, pis)
  | j, pg :: rest, pageIDs, pis =>
    let pi : PageInfo :=
      { ID := (pis.length : Int), ChapterID := ciID, Path := Join [dir, chDir, pg] }
    match sliceSet pageIDs j pi.ID with
    | none => none
    | some pageIDs1 => pagesLoop dir chDir ciID (j + 1) rest pageIDs1 (pis ++ [pi])

/-- Loop `for i, ch := range mangaInfo.Chapters` of `buildIndex` (lines
45-65), from index `i` on. The state is `mi.ChapterIDs`, `cis` and `pis`. -/
def chaptersLoop (dir : String) (miID : Int) :
    Nat → List chapterInfo → List Int → List ChapterInfo → List PageInfo →
      Option (List Int × List ChapterInfo × List PageInfo)
  | _, [], chapterIDs, cis, pis => some (chapterIDs, cis, pis)
  | i, ch :: rest, chapterIDs, cis, pis =>
    match pagesLoop dir ch.Dir (cis.length : Int) 0 ch.Pages (makeInts ch.Pages.length) pis with
    | none => none
    | some (pageIDs, pis1) =>
      let ci : ChapterInfo :=
        { ID := (cis.length : Int), MangaID := miID, Name := ch.Name, PageIDs := pageIDs }
      match sliceSet chapterIDs i ci.ID with
      | none => none
      | some chapterIDs1 => chaptersLoop dir miID (i + 1) rest chapterIDs1 (cis ++ [ci]) pis1

/-- The variables `buildIndex` updates while it walks the listing, and the
errors it has passed to `log.Print`. -/
structure IndexState where
  mis : List MangaInfo
  cis : List ChapterInfo
  pis : List PageInfo
  logged : List GoError
deriving DecidableEq, Repr

/-- Loop `for _, info := range infos` of `buildIndex` (lines 26-68). -/
def dirsLoop (fs : FileSystem) (root : String) : List FileInfo → IndexState → Option IndexState
  | [], st => some st
  | info :: rest, st =>
    if !info.IsDir then dirsLoop fs root rest st
    else
      let dir := Join [root, info.Name]
      match fs.parseFile (Join [dir, ".mangainfo"]) with
      | .error err => dirsLoop fs root rest { st with logged := st.logged ++ [err] }
      | .ok d =>
        match chaptersLoop dir (st.mis.length : Int) 0 d.Chapters
            (makeInts d.Chapters.length) st.cis st.pis with
        | none => none
        | some (chapterIDs, cis1, pis1) =>
          let mi : MangaInfo :=
            { Name := d.Name, ID := (st.mis.length : Int), ChapterIDs := chapterIDs }
          dirsLoop fs root rest
            { mis := st.mis ++ [mi], cis := cis1, pis := pis1, logged := st.logged }

/-- What a call of `buildIndex` leaves behind: its four results and the
errors it logged. -/
structure BuildResult where
  mis : List MangaInfo
  cis : List ChapterInfo
  pis : List PageInfo
  err : Option GoError
  logged : List GoError
deriving DecidableEq, Repr

/-- Function `buildIndex` of `index.go`. `none` is a run-time panic. -/
def buildIndex (fs : FileSystem) (root : String) : Option BuildResult :=
  match fs.ReadDir root with
  | .error err => some { mis := [], cis := [], pis := [], err := some err, logged := [] }
  | .ok infos =>
    match dirsLoop fs root infos { mis := [], cis := [], pis := [], logged := [] } with
    | none => none
    | some st =>
      some { mis := st.mis, cis := st.cis, pis := st.pis, err := none, logged := st.logged }

/-! ## `repository.go` -/

structure MangaRepository where
  mis : List MangaInfo
  cis : List ChapterInfo
  pis : List PageInfo
deriving DecidableEq, Repr

def NewMangaRepository (mis : List MangaInfo) (cis : List ChapterInfo) (pis : List PageInfo) :
    MangaRepository :=
  { mis := mis, cis := cis, pis := pis }

/-- Loop of `GetManga`: the first stored collection whose `ID` is `id`. -/
def getMangaLoop (id : Int) : List MangaInfo → MangaInfo × Bool
  | [] => (MangaInfo.zero, false)
  | mi :: rest => if mi.ID = id then (mi, true) else getMangaLoop id rest

/-- Method `GetManga` of `repository.go`. `none` is a run-time panic. -/
def MangaRepository.GetManga (repo : MangaRepository) (id : Int) : Option (MangaInfo × Bool) :=
  some (getMangaLoop id repo.mis)

/-- Method `GetChapter` of `repository.go`. `none` is a run-time panic. -/
def MangaRepository.GetChapter (repo : MangaRepository) (chapterID : Int) :
    Option (ChapterInfo × Bool) :=
  if chapterID ≥ 0 ∧ chapterID < (repo.cis.length : Int) then
    match sliceIndex repo.cis chapterID with
    | none => none
    | some ci => some (ci, true)
  else some (ChapterInfo.zero, false)

/-- Method `GetPageByID` of `repository.go`. `none` is a run-time panic. -/
def MangaRepository.GetPageByID (repo : MangaRepository) (id : Int) :
    Option (PageInfo × Bool) :=
  if id ≥ 0 ∧ id < (repo.pis.length : Int) then
    match sliceIndex repo.pis id with
    | none => none
    | some pi => some (pi, true)
  else some (PageInfo.zero, false)

/-! ## Vocabulary of the claims -/

/-- Does the descriptor `.mangainfo` of this entry of the root listing parse. -/
def descriptorParses (fs : FileSystem) (root : String) (info : FileInfo) : Bool :=
  match fs.parseFile (Join [Join [root, info.Name], ".mangainfo"]) with
  | .ok _ => true
  | .error _ => false

/-- A well-formed collection directory: a directory whose descriptor parses. -/
def wellFormedDir (fs : FileSystem) (root : String) (info : FileInfo) : Bool :=
  info.IsDir && descriptorParses fs root info

/-- A malformed collection directory: a directory whose descriptor is
missing or does not parse. -/
def malformedDir (fs : FileSystem) (root : String) (info : FileInfo) : Bool :=
  info.IsDir && !descriptorParses fs root info

/-! ## Example trees -/

/-- The descriptor of the example collection: two chapters, of one and of
two pages. -/
def descriptorA : mangaInfo :=
  { Name := "Alpha",
    Chapters := [
      { Name := "one", Dir := "c1", Pages := ["1.png"] },
      { Name := "two", Dir := "c2", Pages := ["1.png", "2.png"] }] }

/-- Root `/r` holding the directories in `listing`; of these only `A` has a
descriptor, `descriptorA`. Any other root cannot be listed. -/
def treeWith (listing : List FileInfo) : FileSystem :=
  { ReadDir := fun path =>
      if path = "/r" then .ok listing else .error { msg := "no such directory" },
    parseFile := fun name =>
      if name = "/r/A/.mangainfo" then .ok descriptorA else .error { msg := "no such file" } }

/-- The listing of the scenario: directories `A` and `B`. -/
def scenarioListing : List FileInfo :=
  [{ Name := "A", IsDir := true }, { Name := "B", IsDir := true }]

/-- Root `/r` with directory `A` (valid descriptor) and directory `B`
(no descriptor). -/
def scenarioFS : FileSystem := treeWith scenarioListing

/-- The tree of `scenarioFS` listed in the other order. -/
def scenarioFSrev : FileSystem :=
  treeWith [{ Name := "B", IsDir := true }, { Name := "A", IsDir := true }]

/-- A listing of two directories. -/
def twoListing : List FileInfo := [{ Name := "A", IsDir := true }, { Name := "C", IsDir := true }]

/-- Root `/r` with two directories that both hold a valid descriptor. -/
def twoFS : FileSystem :=
  { ReadDir := fun path =>
      if path = "/r" then .ok twoListing else .error { msg := "no such directory" },
    parseFile := fun name =>
      if name = "/r/A/.mangainfo" then .ok descriptorA
      else if name = "/r/C/.mangainfo" then .ok { Name := "Gamma", Chapters := [] }
      else .error { msg := "no such file" } }

/-! ## Closed forms of the loops of `buildIndex`

The functions below are not in the source. Each one describes, without
mutation, what one loop appends to one of the three flat lists; the lemmas
of the next part prove that the loops compute exactly that. -/

/-- Identifiers `base, base + 1, ..., base + n - 1`. -/
def idRange (base n : Nat) : List Int := (List.range' base n).map Int.ofNat

/-- Pages appended by `pagesLoop` when `pis` has `base` elements. -/
def pagesOf (dir chDir : String) (ciID : Int) : Nat → List String → List PageInfo
  | _, [] => []
  | base, pg :: rest =>
    { ID := (base : Int), ChapterID := ciID, Path := Join [dir, chDir, pg] } ::
      pagesOf dir chDir ciID (base + 1) rest

/-- Number of pages declared by a list of chapters. -/
def totalPages : List chapterInfo → Nat
  | [] => 0
  | ch :: rest => ch.Pages.length + totalPages rest

/-- Chapters appended by `chaptersLoop` when `cis` has `cbase` elements and
`pis` has `pbase` elements. -/
def chaptersOf (miID : Int) : Nat → Nat → List chapterInfo → List ChapterInfo
  | _, _, [] => []
  | cbase, pbase, ch :: rest =>
    { ID := (cbase : Int), MangaID := miID, Name := ch.Name,
      PageIDs := idRange pbase ch.Pages.length } ::
      chaptersOf miID (cbase + 1) (pbase + ch.Pages.length) rest

/-- Pages appended by `chaptersLoop` when `cis` has `cbase` elements and
`pis` has `pbase` elements. -/
def chapterPagesOf (dir : String) : Nat → Nat → List chapterInfo → List PageInfo
  | _, _, [] => []
  | cbase, pbase, ch :: rest =>
    pagesOf dir ch.Dir (cbase : Int) pbase ch.Pages ++
      chapterPagesOf dir (cbase + 1) (pbase + ch.Pages.length) rest

/-- The directories of a listing whose descriptor parses, in listing order,
each with its name and its descriptor. -/
def parsedDirs (fs : FileSystem) (root : String) : List FileInfo → List (String × mangaInfo)
  | [] => []
  | info :: rest =>
    if !info.IsDir then parsedDirs fs root rest
    else
      match fs.parseFile (Join [Join [root, info.Name], ".mangainfo"]) with
      | .error _ => parsedDirs fs root rest
      | .ok d => (info.Name, d) :: parsedDirs fs root rest

/-- The parse errors of the directories of a listing whose descriptor does
not parse, in listing order. -/
def skippedDirs (fs : FileSystem) (root : String) : List FileInfo → List GoError
  | [] => []
  | info :: rest =>
    if !info.IsDir then skippedDirs fs root rest
    else
      match fs.parseFile (Join [Join [root, info.Name], ".mangainfo"]) with
      | .error err => err :: skippedDirs fs root rest
      | .ok _ => skippedDirs fs root rest

/-- Number of chapters declared by a list of parsed directories. -/
def totalChapters : List (String × mangaInfo) → Nat
  | [] => 0
  | nd :: rest => nd.2.Chapters.length + totalChapters rest

/-- Number of pages declared by a list of parsed directories. -/
def totalPagesAll : List (String × mangaInfo) → Nat
  | [] => 0
  | nd :: rest => totalPages nd.2.Chapters + totalPagesAll rest

/-- Collections appended by `dirsLoop` for the parsed directories, when
`mis` has `mbase` elements and `cis` has `cbase` elements. -/
def mangasOf : Nat → Nat → List (String × mangaInfo) → List MangaInfo
  | _, _, [] => []
  | mbase, cbase, nd :: rest =>
    { ID := (mbase : Int), Name := nd.2.Name,
      ChapterIDs := idRange cbase nd.2.Chapters.length } ::
      mangasOf (mbase + 1) (cbase + nd.2.Chapters.length) rest

/-- Chapters appended by `dirsLoop` for the parsed directories. -/
def allChaptersOf : Nat → Nat → Nat → List (String × mangaInfo) → List ChapterInfo
  | _, _, _, [] => []
  | mbase, cbase, pbase, nd :: rest =>
    chaptersOf (mbase : Int) cbase pbase nd.2.Chapters ++
      allChaptersOf (mbase + 1) (cbase + nd.2.Chapters.length)
        (pbase + totalPages nd.2.Chapters) rest

/-- Pages appended by `dirsLoop` for the parsed directories. -/
def allPagesOf (root : String) : Nat → Nat → List (String × mangaInfo) → List PageInfo
  | _, _, [] => []
  | cbase, pbase, nd :: rest =>
    chapterPagesOf (Join [root, nd.1]) cbase pbase nd.2.Chapters ++
      allPagesOf root (cbase + nd.2.Chapters.length) (pbase + totalPages nd.2.Chapters) rest

/-- The value of `buildIndex` when the root listing succeeds. -/
def indexOf (fs : FileSystem) (root : String) (infos : List FileInfo) : BuildResult :=
  { mis := mangasOf 0 0 (parsedDirs fs root infos),
    cis := allChaptersOf 0 0 0 (parsedDirs fs root infos),
    pis := allPagesOf root 0 0 (parsedDirs fs root infos),
    err := none,
    logged := skippedDirs fs root infos }

/-- The repository `main` builds on the tree `twoFS`. -/
def twoRepo : MangaRepository :=
  NewMangaRepository (indexOf twoFS "/r" twoListing).mis (indexOf twoFS "/r" twoListing).cis
    (indexOf twoFS "/r" twoListing).pis

/-! ## `main.go`: the chapter handler -/

/-- What a handler hands to the HTTP layer: the not-found reply, or the data
given to `ExecuteTemplate` for the chapter template (keys `Manga` and
`Chapter`). -/
inductive Response where
  | notFound
  | chapterPage (manga : MangaInfo) (chapter : ChapterInfo)
deriving DecidableEq, Repr

/-- Type `App` of `main.go`, without its context. -/
structure App where
  repo : MangaRepository

/-- Method `handleChapter` of `main.go`. `none` is a run-time panic. -/
def App.handleChapter (app : App) (id : Int) : Option Response :=
  match app.repo.GetChapter id with
  | none => none
  | some (chapter, ok) =>
    if !ok then some Response.notFound
    else
      match app.repo.GetManga chapter.ID with
      | none => none
      | some (manga, _) => some (Response.chapterPage manga chapter)

/-- The repository `main` builds on the tree `scenarioFS`. -/
def scenarioRepo : MangaRepository :=
  NewMangaRepository (indexOf scenarioFS "/r" scenarioListing).mis
    (indexOf scenarioFS "/r" scenarioListing).cis (indexOf scenarioFS "/r" scenarioListing).pis

/-! ## Absolute paths and path prefixes -/

/-- Go `filepath.IsAbs` on Unix: the path starts with `/`. -/
def IsAbs (path : String) : Bool := isRooted path.data

/-- The tree of `scenarioFS` seen from inside `/r`, the root being `.` (the
default of the `-root` flag): directory `A` with descriptor `descriptorA`. -/
def relativeFS : FileSystem :=
  { ReadDir := fun path =>
      if path = "." then .ok [{ Name := "A", IsDir := true }]
      else .error { msg := "no such directory" },
    parseFile := fun name =>
      if name = "A/.mangainfo" then .ok descriptorA else .error { msg := "no such file" } }

/-- Elements of a path that name something: the pieces between separators
other than the empty one and `.`. -/
def pathElems (path : List Char) : List (List Char) :=
  (splitSlash path).filter (fun e => !(e == [] || e == ['.']))

/-- Does `path` have `dir` as a path prefix: both rooted or both not, and the
elements of `dir` are the first elements of `path`. -/
def hasPathPrefix (dir path : String) : Bool :=
  (isRooted dir.data == isRooted path.data) &&
    (pathElems dir.data).isPrefixOf (pathElems path.data)

/-- Root `/r` with directory `A` whose descriptor names a chapter sub-path
that climbs out of the directory. -/
def escapeFS : FileSystem :=
  { ReadDir := fun path =>
      if path = "/r" then .ok [{ Name := "A", IsDir := true }]
      else .error { msg := "no such directory" },
    parseFile := fun name =>
      if name = "/r/A/.mangainfo" then
        .ok { Name := "Alpha",
              Chapters := [{ Name := "one", Dir := "../../etc", Pages := ["passwd"] }] }
      else .error { msg := "no such file" } }

/-! ## Memory: slices and their backing arrays

`GetAllMangas` allocates and copies, and what it copies holds slices. To
speak of what a caller can change through its result, the values of
`repository.go` are laid out in a heap: a slice is a header (address of a
backing array, length), a `MangaInfo` in memory holds the header of its
`ChapterIDs`, and two headers with the same address share their elements. -/

/-- Header of a Go slice: address of the backing array, and length. The nil
slice has length 0. -/
structure SliceHeader where
  arr : Nat
  len : Nat
deriving DecidableEq, Repr

/-- A `MangaInfo` as it lies in memory. -/
structure MangaCell where
  ID : Int
  Name : String
  ChapterIDs : SliceHeader
deriving DecidableEq, Repr

/-- A `ChapterInfo` as it lies in memory. -/
structure ChapterCell where
  ID : Int
  MangaID : Int
  Name : String
  PageIDs : SliceHeader
deriving DecidableEq, Repr

/-- Go zero value `MangaInfo{}` in memory: its `ChapterIDs` is the nil slice. -/
def MangaCell.zero : MangaCell := { ID := 0, Name := "", ChapterIDs := { arr := 0, len := 0 } }

/-- The heap: the backing arrays of the `[]int` slices and those of the
`[]MangaInfo` slices, each kind by address. -/
structure Memory where
  ints : List (List Int)
  mangas : List (List MangaCell)
deriving DecidableEq, Repr

/-- A `MangaRepository` in memory: the header of `mis`, and the elements of
`cis` and `pis` (no result of `GetAllMangas` points into these two arrays). -/
structure RepositoryCell where
  mis : SliceHeader
  cis : List ChapterCell
  pis : List PageInfo
deriving DecidableEq, Repr

/-- A header that points to an allocated array and does not exceed it. No
slice of the program is cut out of another one, so a header points to the
first element of its array. -/
def validHeader {α : Type} (arrays : List (List α)) (s : SliceHeader) : Prop :=
  s.arr < arrays.length ∧ s.len ≤ (arrays.getD s.arr []).length

/-- The elements of a `[]int` slice. -/
def Memory.readInts (m : Memory) (s : SliceHeader) : List Int :=
  (m.ints.getD s.arr []).take s.len

/-- The elements of a `[]MangaInfo` slice, as they lie in memory. -/
def Memory.cells (m : Memory) (s : SliceHeader) : List MangaCell :=
  (m.mangas.getD s.arr []).take s.len

/-- The value of a `MangaInfo` in memory. -/
def Memory.readManga (m : Memory) (c : MangaCell) : MangaInfo :=
  { ID := c.ID, Name := c.Name, ChapterIDs := m.readInts c.ChapterIDs }

/-- The value of a `ChapterInfo` in memory. -/
def Memory.readChapter (m : Memory) (c : ChapterCell) : ChapterInfo :=
  { ID := c.ID, MangaID := c.MangaID, Name := c.Name, PageIDs := m.readInts c.PageIDs }

/-- The value of a `[]MangaInfo` slice. -/
def Memory.readMangas (m : Memory) (s : SliceHeader) : List MangaInfo :=
  (m.cells s).map m.readManga

/-- The repository a reader sees in memory `m`: the values its accessors
`GetManga`, `GetChapter` and `GetPageByID` work on. -/
def observe (m : Memory) (repo : RepositoryCell) : MangaRepository :=
  { mis := m.readMangas repo.mis, cis := repo.cis.map m.readChapter, pis := repo.pis }

/-- Go built-in `copy(dst, src)`, as the new contents of `dst`: the first
`min(len(dst), len(src))` elements come from `src`. -/
def copyCells (dst src : List MangaCell) : List MangaCell :=
  src.take (min dst.length src.length) ++ dst.drop (min dst.length src.length)

/-- Method `GetAllMangas` of `repository.go`: the header of the slice it
returns and the memory after the call. `make` allocates the next free
address. -/
def RepositoryCell.GetAllMangas (repo : RepositoryCell) (m : Memory) : SliceHeader × Memory :=
  let all := List.replicate repo.mis.len MangaCell.zero
  let all := copyCells all (m.cells repo.mis)
  ({ arr := m.mangas.length, len := repo.mis.len }, { m with mangas := m.mangas ++ [all] })

/-- Caller statement `all[i] = c`. Assigning a field of `all[i]`, and the
swaps of `sort.Slice`, are statements of this form. `none` is the
index-out-of-range panic. -/
def Memory.setElem (m : Memory) (all : SliceHeader) (i : Nat) (c : MangaCell) : Option Memory :=
  if i < all.len then
    some { m with mangas := m.mangas.set all.arr ((m.mangas.getD all.arr []).set i c) }
  else none

/-- A sequence of caller statements `all[i] = c`. -/
def Memory.setElems (m : Memory) (all : SliceHeader) : List (Nat × MangaCell) → Option Memory
  | [] => some m
  | (i, c) :: rest =>
    match m.setElem all i c with
    | none => none
    | some m1 => m1.setElems all rest

/-- Caller statement `all[i].ChapterIDs[k] = v`. `none` is the
index-out-of-range panic. -/
def Memory.setChapterID (m : Memory) (all : SliceHeader) (i k : Nat) (v : Int) :
    Option Memory :=
  if i < all.len then
    match (m.cells all)[i]? with
    | none => none
    | some cell =>
      if k < cell.ChapterIDs.len then
        some { m with
          ints := m.ints.set cell.ChapterIDs.arr
            ((m.ints.getD cell.ChapterIDs.arr []).set k v) }
      else none
  else none

/-- The memory `buildIndex` leaves on the tree `scenarioFS`: the
`ChapterIDs` of collection `A` at address 0, the `PageIDs` of its two
chapters at addresses 1 and 2, and the array of `mis`. -/
def scenarioMemory : Memory :=
  { ints := [[0, 1], [0], [1, 2]],
    mangas := [[{ ID := 0, Name := "Alpha", ChapterIDs := { arr := 0, len := 2 } }]] }

/-- The repository of `scenarioRepo` in `scenarioMemory`. -/
def scenarioRepoCell : RepositoryCell :=
  { mis := { arr := 0, len := 1 },
    cis := [{ ID := 0, MangaID := 0, Name := "one", PageIDs := { arr := 1, len := 1 } },
            { ID := 1, MangaID := 0, Name := "two", PageIDs := { arr := 2, len := 2 } }],
    pis := scenarioRepo.pis }

/-- The memory after a caller of `GetAllMangas` on the scenario repository
has run `all[0] = MangaInfo{ID: 7, Name: "Zeta", ChapterIDs: ...}` on the
result. -/
def scenarioMemoryAfterSet : Memory :=
  { ints := [[0, 1], [0], [1, 2]],
    mangas := [[{ ID := 0, Name := "Alpha", ChapterIDs := { arr := 0, len := 2 } }],
               [{ ID := 7, Name := "Zeta", ChapterIDs := { arr := 1, len := 1 } }],
               [{ ID := 0, Name := "Alpha", ChapterIDs := { arr := 0, len := 2 } }]] }

/-- The memory after a caller of `GetAllMangas` on the scenario repository
has run `all[0].ChapterIDs[0] = 99` on the result. -/
def scenarioMemoryAfterWrite : Memory :=
  { ints := [[99, 1], [0], [1, 2]],
    mangas := [[{ ID := 0, Name := "Alpha", ChapterIDs := { arr := 0, len := 2 } }],
               [{ ID := 0, Name := "Alpha", ChapterIDs := { arr := 0, len := 2 } }]] }

/-! ## `filepath.Join` of a joined path -/

theorem splitSlash_ne_nil (x : List Char) : splitSlash x ≠ [] := by
  cases x with
  | nil => simp [splitSlash]
  | cons c cs =>
    unfold splitSlash
    split
    · simp
    · split <;> simp

theorem splitSlash_noslash (x : List Char) : ∀ e ∈ splitSlash x, '/' ∉ e := by
  induction x with
  | nil => simp [splitSlash]
  | cons c cs ih =>
    unfold splitSlash
    split
    · intro e he
      rcases List.mem_cons.mp he with he | he
      · subst he; simp
      · exact ih e he
    · rename_i hc
      cases hs : splitSlash cs with
      | nil => exact absurd hs (splitSlash_ne_nil cs)
      | cons e0 es =>
        rw [hs] at ih
        intro e he
        rcases List.mem_cons.mp he with he | he
        · subst he
          intro hin
          rcases List.mem_cons.mp hin with h1 | h1
          · exact hc h1.symm
          · exact ih e0 (List.mem_cons_self _ _) h1
        · exact ih e (List.mem_cons_of_mem _ he)

theorem splitSlash_append (x y : List Char) :
    splitSlash (x ++ '/' :: y) = splitSlash x ++ splitSlash y := by
  induction x with
  | nil => simp [splitSlash]
  | cons c cs ih =>
    by_cases hc : c = '/'
    · simp [splitSlash, hc, ih]
    · cases hs : splitSlash cs with
      | nil => exact absurd hs (splitSlash_ne_nil cs)
      | cons e0 es => simp [splitSlash, hc, ih, hs]

theorem splitSlash_self (e : List Char) (h : '/' ∉ e) : splitSlash e = [e] := by
  induction e with
  | nil => rfl
  | cons c cs ih =>
    have hc : c ≠ '/' := fun he => h (by simp [he])
    have hcs : '/' ∉ cs := fun hin => h (List.mem_cons_of_mem _ hin)
    simp [splitSlash, hc, ih hcs]

theorem splitSlash_joinSlash (e0 : List Char) (es : List (List Char))
    (h : ∀ e ∈ e0 :: es, '/' ∉ e) : splitSlash (joinSlash (e0 :: es)) = e0 :: es := by
  induction es generalizing e0 with
  | nil => exact splitSlash_self e0 (h e0 (List.mem_cons_self _ _))
  | cons e1 es ih =>
    have h0 : '/' ∉ e0 := h e0 (List.mem_cons_self _ _)
    have ht : ∀ e ∈ e1 :: es, '/' ∉ e := fun e he => h e (List.mem_cons_of_mem _ he)
    simp only [joinSlash]
    rw [splitSlash_append, splitSlash_self e0 h0, ih e1 ht]
    rfl

theorem cleanStep_inv (rooted : Bool) (st : Nat × List (List Char)) (e : List Char)
    (hinv : cleanInv rooted st) (he : '/' ∉ e) : cleanInv rooted (cleanStep rooted st e) := by
  unfold cleanStep
  split
  · exact hinv
  · split
    · exact hinv
    · split
      · cases hs : st.2 with
        | nil =>
          cases rooted with
          | true => simpa using hinv
          | false => exact ⟨by simp, by simp⟩
        | cons top below =>
          refine ⟨hinv.1, ?_⟩
          intro x hx
          exact hinv.2 x (by rw [hs]; exact List.mem_cons_of_mem _ hx)
      · rename_i h1 h2 h3
        refine ⟨hinv.1, ?_⟩
        intro x hx
        rcases List.mem_cons.mp hx with hx | hx
        · subst hx; exact ⟨h1, h2, h3, he⟩
        · exact hinv.2 x hx

theorem cleanFold_inv (rooted : Bool) (es : List (List Char)) :
    ∀ st : Nat × List (List Char), cleanInv rooted st → (∀ e ∈ es, '/' ∉ e) →
      cleanInv rooted (es.foldl (cleanStep rooted) st) := by
  induction es with
  | nil => intro st h _; exact h
  | cons e rest ih =>
    intro st h hes
    simp only [List.foldl_cons]
    exact ih _ (cleanStep_inv rooted st e h (hes e (List.mem_cons_self _ _)))
      (fun x hx => hes x (List.mem_cons_of_mem _ hx))

theorem cleanFold_plain (rooted : Bool) (es : List (List Char)) :
    ∀ st : Nat × List (List Char), (∀ e ∈ es, isPlainElem e) →
      es.foldl (cleanStep rooted) st = (st.1, es.reverse ++ st.2) := by
  induction es with
  | nil => intro st _; rfl
  | cons e rest ih =>
    intro st hes
    have he := hes e (List.mem_cons_self _ _)
    have hstep : cleanStep rooted st e = (st.1, e :: st.2) := by
      simp [cleanStep, he.1, he.2.1, he.2.2.1]
    simp only [List.foldl_cons, hstep]
    rw [ih _ (fun x hx => hes x (List.mem_cons_of_mem _ hx))]
    simp

theorem cleanFold_dotdot (n : Nat) :
    ∀ k : Nat, (List.replicate n ['.', '.']).foldl (cleanStep false) (k, []) = (k + n, []) := by
  induction n with
  | zero => intro k; rfl
  | succ n ih =>
    intro k
    have hstep : cleanStep false (k, []) ['.', '.'] = (k + 1, []) := by
      simp [cleanStep]
    simp only [List.replicate_succ, List.foldl_cons, hstep, ih]
    congr 1
    omega

theorem dotdot_noslash : '/' ∉ ['.', '.'] := by decide

theorem cleanElems_noslash (rooted : Bool) (st : Nat × List (List Char))
    (hinv : cleanInv rooted st) : ∀ e ∈ cleanElems st, '/' ∉ e := by
  intro e he
  rcases List.mem_append.mp he with h | h
  · rw [(List.mem_replicate.mp h).2]; exact dotdot_noslash
  · exact (hinv.2 e (List.mem_reverse.mp h)).2.2.2

theorem cleanElems_nonempty (rooted : Bool) (st : Nat × List (List Char))
    (hinv : cleanInv rooted st) : ∀ e ∈ cleanElems st, e ≠ [] := by
  intro e he
  rcases List.mem_append.mp he with h | h
  · rw [(List.mem_replicate.mp h).2]; simp
  · exact (hinv.2 e (List.mem_reverse.mp h)).1

theorem cleanFold_elems (rooted : Bool) (st : Nat × List (List Char))
    (hinv : cleanInv rooted st) :
    (cleanElems st).foldl (cleanStep rooted) (0, []) = st := by
  unfold cleanElems
  rw [List.foldl_append]
  have hplain : ∀ e ∈ st.2.reverse, isPlainElem e :=
    fun e he => hinv.2 e (List.mem_reverse.mp he)
  cases rooted with
  | true =>
    have h0 : st.1 = 0 := hinv.1 rfl
    rw [h0, List.replicate_zero, List.foldl_nil, cleanFold_plain true _ _ hplain]
    simp [← h0]
  | false =>
    rw [cleanFold_dotdot, cleanFold_plain false _ _ hplain]
    simp

theorem joinSlash_head (e0 : List Char) (es : List (List Char)) :
    ∃ t, joinSlash (e0 :: es) = e0 ++ t := by
  cases es with
  | nil => exact ⟨[], by simp [joinSlash]⟩
  | cons e1 es => exact ⟨'/' :: joinSlash (e1 :: es), rfl⟩

/-- Cleaning the text of the output buffer again gives the same buffer. -/
theorem cleanFold_render (rooted : Bool) (st : Nat × List (List Char))
    (hinv : cleanInv rooted st) :
    (splitSlash (cleanRender rooted st)).foldl (cleanStep rooted) (0, []) = st := by
  have hfold := cleanFold_elems rooted st hinv
  have hns := cleanElems_noslash rooted st hinv
  cases hel : cleanElems st with
  | nil =>
    rw [hel] at hfold
    cases rooted with
    | true => simpa [cleanRender, hel, joinSlash, splitSlash, cleanStep] using hfold
    | false => simpa [cleanRender, hel, splitSlash, cleanStep] using hfold
  | cons e0 es =>
    rw [hel] at hfold hns
    have hsplit := splitSlash_joinSlash e0 es hns
    cases rooted with
    | true =>
      have hr : cleanRender true st = '/' :: joinSlash (e0 :: es) := by
        simp [cleanRender, hel]
      have hs : splitSlash ('/' :: joinSlash (e0 :: es)) = [] :: e0 :: es := by
        simp [splitSlash, hsplit]
      rw [hr, hs, List.foldl_cons]
      have h0 : cleanStep true (0, []) [] = (0, []) := by simp [cleanStep]
      rw [h0]
      exact hfold
    | false =>
      have hr : cleanRender false st = joinSlash (e0 :: es) := by
        simp [cleanRender, hel]
      rw [hr, hsplit]
      exact hfold

theorem cleanRender_ne_nil (rooted : Bool) (st : Nat × List (List Char))
    (hinv : cleanInv rooted st) : cleanRender rooted st ≠ [] := by
  cases rooted with
  | true => simp [cleanRender]
  | false =>
    cases hel : cleanElems st with
    | nil => simp [cleanRender, hel]
    | cons e0 es =>
      have hne : e0 ≠ [] := cleanElems_nonempty false st hinv e0 (by rw [hel]; simp)
      obtain ⟨t, ht⟩ := joinSlash_head e0 es
      simp [cleanRender, hel, ht, hne]

theorem cleanRender_isRooted (rooted : Bool) (st : Nat × List (List Char))
    (hinv : cleanInv rooted st) : isRooted (cleanRender rooted st) = rooted := by
  cases rooted with
  | true => simp [cleanRender, isRooted]
  | false =>
    cases hel : cleanElems st with
    | nil => simp [cleanRender, hel, isRooted]
    | cons e0 es =>
      have hne : e0 ≠ [] := cleanElems_nonempty false st hinv e0 (by rw [hel]; simp)
      have hns : '/' ∉ e0 := cleanElems_noslash false st hinv e0 (by rw [hel]; simp)
      obtain ⟨t, ht⟩ := joinSlash_head e0 es
      cases e0 with
      | nil => exact absurd rfl hne
      | cons c cs =>
        have hc : c ≠ '/' := fun he => hns (by simp [he])
        simp [cleanRender, hel, ht, isRooted, hc]

theorem cleanInv_init (rooted : Bool) : cleanInv rooted (0, []) := ⟨fun _ => rfl, by simp⟩

theorem cleanChars_of_ne_nil (x : List Char) (hx : x ≠ []) :
    cleanChars x =
      cleanRender (isRooted x) ((splitSlash x).foldl (cleanStep (isRooted x)) (0, [])) := by
  simp [cleanChars, hx]

theorem cleanChars_ne_nil (x : List Char) : cleanChars x ≠ [] := by
  unfold cleanChars
  split
  · simp
  · exact cleanRender_ne_nil _ _
      (cleanFold_inv _ _ _ (cleanInv_init _) (splitSlash_noslash x))

/-- Go: `Clean(Clean(x) + "/" + y) = Clean(x + "/" + y)` for a non-empty `x`. -/
theorem cleanChars_prefix (x y : List Char) (hx : x ≠ []) :
    cleanChars (cleanChars x ++ '/' :: y) = cleanChars (x ++ '/' :: y) := by
  have hinv : cleanInv (isRooted x) ((splitSlash x).foldl (cleanStep (isRooted x)) (0, [])) :=
    cleanFold_inv _ _ _ (cleanInv_init _) (splitSlash_noslash x)
  have hcx := cleanChars_of_ne_nil x hx
  have hr1 : isRooted (cleanChars x ++ '/' :: y) = isRooted x := by
    have hne := cleanChars_ne_nil x
    have hroot := cleanRender_isRooted _ _ hinv
    rw [← hcx] at hroot
    cases hc : cleanChars x with
    | nil => exact absurd hc hne
    | cons c cs => rw [hc] at hroot; simpa [isRooted] using hroot
  have hr2 : isRooted (x ++ '/' :: y) = isRooted x := by
    cases x with
    | nil => exact absurd rfl hx
    | cons c cs => simp [isRooted]
  have hn1 : cleanChars x ++ '/' :: y ≠ [] := by simp
  have hn2 : x ++ '/' :: y ≠ [] := by simp
  have hre := cleanFold_render _ _ hinv
  rw [← hcx] at hre
  rw [cleanChars_of_ne_nil _ hn1, cleanChars_of_ne_nil _ hn2, hr1, hr2, splitSlash_append,
    splitSlash_append, List.foldl_append, List.foldl_append, hre]

theorem joinChars_nested (a b c d : List Char) :
    joinChars [joinChars [a, b], c, d] = joinChars [a, b, c, d] := by
  by_cases ha : a = []
  · by_cases hb : b = []
    · subst ha hb
      simp [joinChars]
    · subst ha
      have h1 : joinChars [[], b] = cleanChars b := by simp [joinChars, hb, joinSlash]
      have hne := cleanChars_ne_nil b
      rw [h1]
      simp only [joinChars, List.dropWhile, hne, hb, decide_False, decide_True, joinSlash]
      exact cleanChars_prefix b (c ++ '/' :: d) hb
  · have h1 : joinChars [a, b] = cleanChars (a ++ '/' :: b) := by
      simp [joinChars, ha, joinSlash]
    have hne := cleanChars_ne_nil (a ++ '/' :: b)
    rw [h1]
    simp only [joinChars, List.dropWhile, hne, ha, decide_False, joinSlash]
    have := cleanChars_prefix (a ++ '/' :: b) (c ++ '/' :: d) (by simp)
    simpa using this

/-- Go: `Join(Join(a, b), c, d) = Join(a, b, c, d)`. -/
theorem Join_nested (a b c d : String) : Join [Join [a, b], c, d] = Join [a, b, c, d] := by
  simp only [Join, List.map]
  rw [joinChars_nested]

/-! ## The loops compute their closed forms -/

theorem idRange_zero (base : Nat) : idRange base 0 = [] := rfl

theorem idRange_succ (base n : Nat) :
    idRange base (n + 1) = (base : Int) :: idRange (base + 1) n := by
  simp [idRange, List.range'_succ]

theorem idRange_length (base n : Nat) : (idRange base n).length = n := by
  simp [idRange]

theorem idRange_add (base m n : Nat) :
    idRange base (m + n) = idRange base m ++ idRange (base + m) n := by
  induction m generalizing base with
  | zero => simp [idRange_zero]
  | succ m ih =>
    rw [Nat.add_right_comm, idRange_succ, idRange_succ, ih (base + 1)]
    simp [Nat.add_assoc, Nat.add_comm 1 m]

theorem sliceSet_append {α : Type} (pre : List α) (x v : α) (post : List α) :
    sliceSet (pre ++ x :: post) pre.length v = some (pre ++ v :: post) := by
  simp [sliceSet]

theorem pagesOf_length (dir chDir : String) (ciID : Int) (base : Nat) (pages : List String) :
    (pagesOf dir chDir ciID base pages).length = pages.length := by
  induction pages generalizing base with
  | nil => rfl
  | cons pg rest ih => simp [pagesOf, ih]

theorem pagesLoop_eq (dir chDir : String) (ciID : Int) (pages : List String) :
    ∀ (pre mid : List Int) (pis : List PageInfo), mid.length = pages.length →
      pagesLoop dir chDir ciID pre.length pages (pre ++ mid) pis =
        some (pre ++ idRange pis.length pages.length,
          pis ++ pagesOf dir chDir ciID pis.length pages) := by
  induction pages with
  | nil =>
    intro pre mid pis h
    have hm : mid = [] := List.length_eq_zero.mp h
    simp [pagesLoop, pagesOf, idRange_zero, hm]
  | cons pg rest ih =>
    intro pre mid pis h
    cases mid with
    | nil => simp at h
    | cons m mid =>
      simp only [List.length_cons, Nat.add_right_cancel_iff] at h
      simp only [pagesLoop, sliceSet_append]
      have := ih (pre ++ [(pis.length : Int)]) mid
        (pis ++ [{ ID := (pis.length : Int), ChapterID := ciID, Path := Join [dir, chDir, pg] }]) h
      simp only [List.length_append, List.length_singleton, List.append_assoc,
        List.singleton_append] at this
      rw [this]
      simp [idRange_succ, pagesOf]

theorem pagesLoop_make (dir chDir : String) (ciID : Int) (pages : List String)
    (pis : List PageInfo) :
    pagesLoop dir chDir ciID 0 pages (makeInts pages.length) pis =
      some (idRange pis.length pages.length, pis ++ pagesOf dir chDir ciID pis.length pages) := by
  have := pagesLoop_eq dir chDir ciID pages [] (makeInts pages.length) pis (by simp [makeInts])
  simpa using this

theorem chaptersOf_length (miID : Int) (cbase pbase : Nat) (chs : List chapterInfo) :
    (chaptersOf miID cbase pbase chs).length = chs.length := by
  induction chs generalizing cbase pbase with
  | nil => rfl
  | cons ch rest ih => simp [chaptersOf, ih]

theorem chapterPagesOf_length (dir : String) (cbase pbase : Nat) (chs : List chapterInfo) :
    (chapterPagesOf dir cbase pbase chs).length = totalPages chs := by
  induction chs generalizing cbase pbase with
  | nil => rfl
  | cons ch rest ih => simp [chapterPagesOf, totalPages, ih, pagesOf_length]

theorem chaptersLoop_eq (dir : String) (miID : Int) (chs : List chapterInfo) :
    ∀ (pre mid : List Int) (cis : List ChapterInfo) (pis : List PageInfo),
      mid.length = chs.length →
      chaptersLoop dir miID pre.length chs (pre ++ mid) cis pis =
        some (pre ++ idRange cis.length chs.length,
          cis ++ chaptersOf miID cis.length pis.length chs,
          pis ++ chapterPagesOf dir cis.length pis.length chs) := by
  induction chs with
  | nil =>
    intro pre mid cis pis h
    have hm : mid = [] := List.length_eq_zero.mp h
    simp [chaptersLoop, chaptersOf, chapterPagesOf, idRange_zero, hm]
  | cons ch rest ih =>
    intro pre mid cis pis h
    cases mid with
    | nil => simp at h
    | cons m mid =>
      simp only [List.length_cons, Nat.add_right_cancel_iff] at h
      simp only [chaptersLoop, pagesLoop_make, sliceSet_append]
      have := ih (pre ++ [(cis.length : Int)]) mid
        (cis ++ [{ ID := (cis.length : Int), MangaID := miID, Name := ch.Name,
                   PageIDs := idRange pis.length ch.Pages.length }])
        (pis ++ pagesOf dir ch.Dir (cis.length : Int) pis.length ch.Pages) h
      simp only [List.length_append, List.length_singleton, List.append_assoc,
        List.singleton_append, pagesOf_length] at this
      rw [this]
      simp [idRange_succ, chaptersOf, chapterPagesOf]

theorem chaptersLoop_make (dir : String) (miID : Int) (chs : List chapterInfo)
    (cis : List ChapterInfo) (pis : List PageInfo) :
    chaptersLoop dir miID 0 chs (makeInts chs.length) cis pis =
      some (idRange cis.length chs.length,
        cis ++ chaptersOf miID cis.length pis.length chs,
        pis ++ chapterPagesOf dir cis.length pis.length chs) := by
  have := chaptersLoop_eq dir miID chs [] (makeInts chs.length) cis pis (by simp [makeInts])
  simpa using this

theorem mangasOf_length (mbase cbase : Nat) (nds : List (String × mangaInfo)) :
    (mangasOf mbase cbase nds).length = nds.length := by
  induction nds generalizing mbase cbase with
  | nil => rfl
  | cons nd rest ih => simp [mangasOf, ih]

theorem allChaptersOf_length (mbase cbase pbase : Nat) (nds : List (String × mangaInfo)) :
    (allChaptersOf mbase cbase pbase nds).length = totalChapters nds := by
  induction nds generalizing mbase cbase pbase with
  | nil => rfl
  | cons nd rest ih => simp [allChaptersOf, totalChapters, ih, chaptersOf_length]

theorem allPagesOf_length (root : String) (cbase pbase : Nat) (nds : List (String × mangaInfo)) :
    (allPagesOf root cbase pbase nds).length = totalPagesAll nds := by
  induction nds generalizing cbase pbase with
  | nil => rfl
  | cons nd rest ih => simp [allPagesOf, totalPagesAll, ih, chapterPagesOf_length]

theorem dirsLoop_eq (fs : FileSystem) (root : String) (infos : List FileInfo) :
    ∀ st : IndexState,
      dirsLoop fs root infos st =
        some
          { mis := st.mis ++ mangasOf st.mis.length st.cis.length (parsedDirs fs root infos),
            cis := st.cis ++
              allChaptersOf st.mis.length st.cis.length st.pis.length (parsedDirs fs root infos),
            pis := st.pis ++ allPagesOf root st.cis.length st.pis.length (parsedDirs fs root infos),
            logged := st.logged ++ skippedDirs fs root infos } := by
  induction infos with
  | nil => intro st; simp [dirsLoop, parsedDirs, skippedDirs, mangasOf, allChaptersOf, allPagesOf]
  | cons info rest ih =>
    intro st
    cases hd : info.IsDir with
    | false => simp [dirsLoop, parsedDirs, skippedDirs, hd, ih]
    | true =>
      cases hp : fs.parseFile (Join [Join [root, info.Name], ".mangainfo"]) with
      | error err => simp [dirsLoop, parsedDirs, skippedDirs, hd, hp, ih]
      | ok d =>
        simp [dirsLoop, parsedDirs, skippedDirs, hd, hp, ih, chaptersLoop_make, mangasOf,
          allChaptersOf, allPagesOf, chaptersOf_length, chapterPagesOf_length]

theorem buildIndex_ok (fs : FileSystem) (root : String) (infos : List FileInfo)
    (h : fs.ReadDir root = .ok infos) : buildIndex fs root = some (indexOf fs root infos) := by
  simp [buildIndex, h, dirsLoop_eq, indexOf]

theorem buildIndex_error (fs : FileSystem) (root : String) (err : GoError)
    (h : fs.ReadDir root = .error err) :
    buildIndex fs root =
      some { mis := [], cis := [], pis := [], err := some err, logged := [] } := by
  simp [buildIndex, h]

/-- Every call of `buildIndex` returns, and its three lists are the closed
forms for some list of parsed directories (none when the listing fails). -/
theorem buildIndex_shape (fs : FileSystem) (root : String) :
    ∃ (r : BuildResult) (nds : List (String × mangaInfo)),
      buildIndex fs root = some r ∧ r.mis = mangasOf 0 0 nds ∧
        r.cis = allChaptersOf 0 0 0 nds ∧ r.pis = allPagesOf root 0 0 nds := by
  cases h : fs.ReadDir root with
  | error err =>
    exact ⟨_, [], buildIndex_error fs root err h, rfl, rfl, rfl⟩
  | ok infos =>
    exact ⟨_, parsedDirs fs root infos, buildIndex_ok fs root infos h, rfl, rfl, rfl⟩

/-! ## Identifiers of the closed forms -/

theorem pagesOf_ids (dir chDir : String) (ciID : Int) (base : Nat) (pages : List String) :
    (pagesOf dir chDir ciID base pages).map PageInfo.ID = idRange base pages.length := by
  induction pages generalizing base with
  | nil => rfl
  | cons pg rest ih => simp [pagesOf, idRange_succ, ih]

theorem chapterPagesOf_ids (dir : String) (cbase pbase : Nat) (chs : List chapterInfo) :
    (chapterPagesOf dir cbase pbase chs).map PageInfo.ID = idRange pbase (totalPages chs) := by
  induction chs generalizing cbase pbase with
  | nil => rfl
  | cons ch rest ih => simp [chapterPagesOf, totalPages, idRange_add, ih, pagesOf_ids]

theorem allPagesOf_ids (root : String) (cbase pbase : Nat) (nds : List (String × mangaInfo)) :
    (allPagesOf root cbase pbase nds).map PageInfo.ID = idRange pbase (totalPagesAll nds) := by
  induction nds generalizing cbase pbase with
  | nil => rfl
  | cons nd rest ih => simp [allPagesOf, totalPagesAll, idRange_add, ih, chapterPagesOf_ids]

theorem chaptersOf_ids (miID : Int) (cbase pbase : Nat) (chs : List chapterInfo) :
    (chaptersOf miID cbase pbase chs).map ChapterInfo.ID = idRange cbase chs.length := by
  induction chs generalizing cbase pbase with
  | nil => rfl
  | cons ch rest ih => simp [chaptersOf, idRange_succ, ih]

theorem allChaptersOf_ids (mbase cbase pbase : Nat) (nds : List (String × mangaInfo)) :
    (allChaptersOf mbase cbase pbase nds).map ChapterInfo.ID =
      idRange cbase (totalChapters nds) := by
  induction nds generalizing mbase cbase pbase with
  | nil => rfl
  | cons nd rest ih => simp [allChaptersOf, totalChapters, idRange_add, ih, chaptersOf_ids]

theorem mangasOf_ids (mbase cbase : Nat) (nds : List (String × mangaInfo)) :
    (mangasOf mbase cbase nds).map MangaInfo.ID = idRange mbase nds.length := by
  induction nds generalizing mbase cbase with
  | nil => rfl
  | cons nd rest ih => simp [mangasOf, idRange_succ, ih]

/-! ## Owners in the closed forms

For each level, the list of pairs (identifier in a cross-reference list,
identifier of the entity holding that list), read off the parents in order,
is the list of pairs (own identifier, owner identifier) of the children. -/

theorem pagesOf_pairs (dir chDir : String) (ciID : Int) (base : Nat) (pages : List String) :
    (idRange base pages.length).map (fun id => (id, ciID)) =
      (pagesOf dir chDir ciID base pages).map (fun p => (p.ID, p.ChapterID)) := by
  induction pages generalizing base with
  | nil => rfl
  | cons pg rest ih => simp [pagesOf, idRange_succ, ih]

theorem chaptersOf_page_pairs (dir : String) (miID : Int) (cbase pbase : Nat)
    (chs : List chapterInfo) :
    (chaptersOf miID cbase pbase chs).flatMap (fun c => c.PageIDs.map (fun id => (id, c.ID))) =
      (chapterPagesOf dir cbase pbase chs).map (fun p => (p.ID, p.ChapterID)) := by
  induction chs generalizing cbase pbase with
  | nil => rfl
  | cons ch rest ih => simp [chaptersOf, chapterPagesOf, ih, pagesOf_pairs dir ch.Dir]

theorem allChaptersOf_page_pairs (root : String) (mbase cbase pbase : Nat)
    (nds : List (String × mangaInfo)) :
    (allChaptersOf mbase cbase pbase nds).flatMap
        (fun c => c.PageIDs.map (fun id => (id, c.ID))) =
      (allPagesOf root cbase pbase nds).map (fun p => (p.ID, p.ChapterID)) := by
  induction nds generalizing mbase cbase pbase with
  | nil => rfl
  | cons nd rest ih =>
    simp [allChaptersOf, allPagesOf, ih, chaptersOf_page_pairs (Join [root, nd.1])]

theorem chaptersOf_pairs (miID : Int) (cbase pbase : Nat) (chs : List chapterInfo) :
    (idRange cbase chs.length).map (fun id => (id, miID)) =
      (chaptersOf miID cbase pbase chs).map (fun c => (c.ID, c.MangaID)) := by
  induction chs generalizing cbase pbase with
  | nil => rfl
  | cons ch rest ih =>
    simp [chaptersOf, idRange_succ, ih (cbase + 1) (pbase + ch.Pages.length)]

theorem mangasOf_chapter_pairs (mbase cbase pbase : Nat) (nds : List (String × mangaInfo)) :
    (mangasOf mbase cbase nds).flatMap (fun m => m.ChapterIDs.map (fun id => (id, m.ID))) =
      (allChaptersOf mbase cbase pbase nds).map (fun c => (c.ID, c.MangaID)) := by
  induction nds generalizing mbase cbase pbase with
  | nil => rfl
  | cons nd rest ih =>
    simp [mangasOf, allChaptersOf, ih (mbase + 1) _ (pbase + totalPages nd.2.Chapters),
      chaptersOf_pairs (mbase : Int) cbase pbase]

/-! ## Identifier equals position: consequences -/

theorem idRange_getElem? (base n i : Nat) :
    (idRange base n)[i]? = if i < n then some ((base + i : Nat) : Int) else none := by
  unfold idRange
  rw [List.getElem?_map]
  by_cases h : i < n
  · simp [h, List.getElem?_range' _ _ h]
  · simp [h, List.getElem?_eq_none, Nat.le_of_not_lt h]

theorem idRange_eq_range (n : Nat) : idRange 0 n = (List.range n).map Int.ofNat := by
  simp [idRange, List.range_eq_range']

theorem idRange_nodup (base n : Nat) : (idRange base n).Nodup :=
  List.Nodup.map Int.ofNat_injective (List.nodup_range' base n)

theorem mem_idRange {base n : Nat} {id : Int} (h : id ∈ idRange base n) :
    (base : Int) ≤ id ∧ id < ((base + n : Nat) : Int) := by
  simp only [idRange, List.mem_map, List.mem_range'_1] at h
  obtain ⟨k, ⟨h1, h2⟩, rfl⟩ := h
  exact ⟨Int.ofNat_le.mpr h1, Int.ofNat_lt.mpr h2⟩

/-- When the identifiers of a list are `0, 1, ...`, the element at position
`i` has identifier `i`. -/
theorem id_eq_position {α : Type} (f : α → Int) (xs : List α)
    (h : xs.map f = idRange 0 xs.length) (i : Nat) (x : α) (hx : xs[i]? = some x) :
    f x = (i : Int) := by
  have h1 : (xs.map f)[i]? = some (f x) := by simp [List.getElem?_map, hx]
  rw [h, idRange_getElem?] at h1
  by_cases hi : i < xs.length
  · simp [hi] at h1
    exact h1.symm
  · simp [hi] at h1

/-- When the identifiers of a list are `0, 1, ...`, indexing the list by the
identifier of one of its elements gives that element. -/
theorem sliceIndex_id {α : Type} (f : α → Int) (xs : List α)
    (h : xs.map f = idRange 0 xs.length) (x : α) (hx : x ∈ xs) :
    sliceIndex xs (f x) = some x := by
  obtain ⟨i, hi⟩ := List.mem_iff_getElem?.mp hx
  have hlt : i < xs.length := by
    by_contra hc
    rw [List.getElem?_eq_none (Nat.le_of_not_lt hc)] at hi
    exact Option.noConfusion hi
  rw [id_eq_position f xs h i x hi]
  simp [sliceIndex, hlt, hi]

theorem sliceIndex_some_bounds {α : Type} (xs : List α) (i : Int) (x : α)
    (h : sliceIndex xs i = some x) : 0 ≤ i ∧ i < (xs.length : Int) := by
  unfold sliceIndex at h
  by_cases hb : 0 ≤ i ∧ i < (xs.length : Int)
  · exact hb
  · simp [hb] at h

/-- Cross-references between a list of parents and a list of children, both
with identifier equal to position, when the parents list their children as
the pairs of the children say. -/
theorem crossref {P C : Type} (ps : List P) (cs : List C) (pid : P → Int)
    (kids : P → List Int) (cid owner : C → Int)
    (hp : ps.map pid = idRange 0 ps.length) (hc : cs.map cid = idRange 0 cs.length)
    (hpairs : ps.flatMap (fun p => (kids p).map (fun id => (id, pid p))) =
      cs.map (fun c => (cid c, owner c))) :
    (∀ c ∈ cs, ∃ p, sliceIndex ps (owner c) = some p ∧ (kids p).count (cid c) = 1 ∧
        ∀ (i : Nat) (q : P), ps[i]? = some q → cid c ∈ kids q → (i : Int) = owner c) ∧
    (∀ p ∈ ps, ∀ id ∈ kids p, ∃ c, sliceIndex cs id = some c ∧ owner c = pid p) := by
  have hflat : ps.flatMap kids = cs.map cid := by
    have := congrArg (List.map Prod.fst) hpairs
    simpa [List.map_flatMap, Function.comp_def] using this
  have hnodup : ∀ p ∈ ps, (kids p).Nodup := by
    have hn : (ps.flatMap kids).Nodup := by rw [hflat, hc]; exact idRange_nodup _ _
    exact (List.nodup_flatMap.mp hn).1
  have hinj : ∀ c ∈ cs, ∀ c2 ∈ cs, cid c2 = cid c → c2 = c := by
    intro c hcm c2 hc2 he
    have h1 := sliceIndex_id cid cs hc c hcm
    have h2 := sliceIndex_id cid cs hc c2 hc2
    rw [he, h1] at h2
    exact (Option.some.inj h2).symm
  have hdown : ∀ p ∈ ps, ∀ id ∈ kids p, ∃ c ∈ cs, cid c = id ∧ owner c = pid p := by
    intro p hpm id hid
    have hm : (id, pid p) ∈ ps.flatMap (fun p => (kids p).map (fun id => (id, pid p))) :=
      List.mem_flatMap.mpr ⟨p, hpm, List.mem_map.mpr ⟨id, hid, rfl⟩⟩
    rw [hpairs] at hm
    obtain ⟨c, hcm, he⟩ := List.mem_map.mp hm
    exact ⟨c, hcm, (Prod.mk.inj he).1, (Prod.mk.inj he).2⟩
  constructor
  · intro c hcm
    have hm : (cid c, owner c) ∈ cs.map (fun c => (cid c, owner c)) :=
      List.mem_map.mpr ⟨c, hcm, rfl⟩
    rw [← hpairs] at hm
    obtain ⟨p, hpm, hin⟩ := List.mem_flatMap.mp hm
    obtain ⟨id, hid, he⟩ := List.mem_map.mp hin
    have he1 : id = cid c := (Prod.mk.inj he).1
    have he2 : pid p = owner c := (Prod.mk.inj he).2
    subst he1
    refine ⟨p, ?_, List.count_eq_one_of_mem (hnodup p hpm) hid, ?_⟩
    · rw [← he2]; exact sliceIndex_id pid ps hp p hpm
    · intro i q hq hin2
      have hqm : q ∈ ps := List.mem_iff_getElem?.mpr ⟨i, hq⟩
      obtain ⟨c2, hc2, e1, e2⟩ := hdown q hqm _ hin2
      have := hinj c hcm c2 hc2 e1
      subst this
      rw [e2]
      exact (id_eq_position pid ps hp i q hq).symm
  · intro p hpm id hid
    obtain ⟨c, hcm, e1, e2⟩ := hdown p hpm id hid
    exact ⟨c, by rw [← e1]; exact sliceIndex_id cid cs hc c hcm, e2⟩

/-- Every call of `buildIndex` returns; in what it returns the identifiers
of each list are `0, 1, ...` and the cross-reference lists agree with the
owner fields. -/
theorem buildIndex_wf (fs : FileSystem) (root : String) :
    ∃ r : BuildResult, buildIndex fs root = some r ∧
      r.mis.map MangaInfo.ID = idRange 0 r.mis.length ∧
      r.cis.map ChapterInfo.ID = idRange 0 r.cis.length ∧
      r.pis.map PageInfo.ID = idRange 0 r.pis.length ∧
      r.mis.flatMap (fun m => m.ChapterIDs.map (fun id => (id, m.ID))) =
        r.cis.map (fun c => (c.ID, c.MangaID)) ∧
      r.cis.flatMap (fun c => c.PageIDs.map (fun id => (id, c.ID))) =
        r.pis.map (fun p => (p.ID, p.ChapterID)) := by
  obtain ⟨r, nds, hr, hm, hc, hp⟩ := buildIndex_shape fs root
  refine ⟨r, hr, ?_, ?_, ?_, ?_, ?_⟩
  · rw [hm, mangasOf_ids, mangasOf_length]
  · rw [hc, allChaptersOf_ids, allChaptersOf_length]
  · rw [hp, allPagesOf_ids, allPagesOf_length]
  · rw [hm, hc]; exact mangasOf_chapter_pairs 0 0 0 nds
  · rw [hc, hp]; exact allChaptersOf_page_pairs root 0 0 0 nds

/-! ## The claims -/

/-- C1: for every file system and root, `buildIndex` returns, and in each of
the three returned lists the element at position `i` has `ID = i`; hence the
identifiers of each list, read in order, are `0, 1, ..., length - 1`. -/
theorem buildIndex_id_eq_position (fs : FileSystem) (root : String) :
    ∃ r : BuildResult, buildIndex fs root = some r ∧
      (∀ (i : Nat) (m : MangaInfo), r.mis[i]? = some m → m.ID = (i : Int)) ∧
      (∀ (i : Nat) (c : ChapterInfo), r.cis[i]? = some c → c.ID = (i : Int)) ∧
      (∀ (i : Nat) (p : PageInfo), r.pis[i]? = some p → p.ID = (i : Int)) ∧
      r.mis.map MangaInfo.ID = (List.range r.mis.length).map Int.ofNat ∧
      r.cis.map ChapterInfo.ID = (List.range r.cis.length).map Int.ofNat ∧
      r.pis.map PageInfo.ID = (List.range r.pis.length).map Int.ofNat := by
  obtain ⟨r, hr, hm, hc, hp, _, _⟩ := buildIndex_wf fs root
  exact ⟨r, hr, id_eq_position _ _ hm, id_eq_position _ _ hc, id_eq_position _ _ hp,
    by rw [hm, idRange_eq_range], by rw [hc, idRange_eq_range], by rw [hp, idRange_eq_range]⟩

/-- C2: in every output of `buildIndex`, for every chapter `c` the index
`c.MangaID` is valid in `mis`, the collection found there lists `c.ID`
exactly once, and a collection at any other position does not list `c.ID`;
conversely every identifier listed by a collection `m` is a valid index into
`cis` and the chapter found there has `MangaID = m.ID`. -/
theorem buildIndex_chapter_owner (fs : FileSystem) (root : String) :
    ∃ r : BuildResult, buildIndex fs root = some r ∧
      (∀ c ∈ r.cis, ∃ m, sliceIndex r.mis c.MangaID = some m ∧ m.ChapterIDs.count c.ID = 1 ∧
        ∀ (i : Nat) (m2 : MangaInfo), r.mis[i]? = some m2 → (i : Int) ≠ c.MangaID →
          c.ID ∉ m2.ChapterIDs) ∧
      (∀ m ∈ r.mis, ∀ id ∈ m.ChapterIDs, ∃ c, sliceIndex r.cis id = some c ∧
        c.MangaID = m.ID) := by
  obtain ⟨r, hr, hm, hc, _, hmc, _⟩ := buildIndex_wf fs root
  have h := crossref r.mis r.cis MangaInfo.ID MangaInfo.ChapterIDs ChapterInfo.ID
    ChapterInfo.MangaID hm hc hmc
  refine ⟨r, hr, ?_, h.2⟩
  intro c hcm
  obtain ⟨m, h1, h2, h3⟩ := h.1 c hcm
  exact ⟨m, h1, h2, fun i m2 hi hne hin => hne (h3 i m2 hi hin)⟩

/-- C3: in every output of `buildIndex`, for every page `p` the index
`p.ChapterID` is valid in `cis`, the chapter found there lists `p.ID` exactly
once, and a chapter at any other position does not list `p.ID`; conversely
every identifier listed by a chapter `c` is a valid index into `pis` and the
page found there has `ChapterID = c.ID`. -/
theorem buildIndex_page_owner (fs : FileSystem) (root : String) :
    ∃ r : BuildResult, buildIndex fs root = some r ∧
      (∀ p ∈ r.pis, ∃ c, sliceIndex r.cis p.ChapterID = some c ∧ c.PageIDs.count p.ID = 1 ∧
        ∀ (i : Nat) (c2 : ChapterInfo), r.cis[i]? = some c2 → (i : Int) ≠ p.ChapterID →
          p.ID ∉ c2.PageIDs) ∧
      (∀ c ∈ r.cis, ∀ id ∈ c.PageIDs, ∃ p, sliceIndex r.pis id = some p ∧
        p.ChapterID = c.ID) := by
  obtain ⟨r, hr, _, hc, hp, _, hcp⟩ := buildIndex_wf fs root
  have h := crossref r.cis r.pis ChapterInfo.ID ChapterInfo.PageIDs PageInfo.ID
    PageInfo.ChapterID hc hp hcp
  refine ⟨r, hr, ?_, h.2⟩
  intro p hpm
  obtain ⟨c, h1, h2, h3⟩ := h.1 p hpm
  exact ⟨c, h1, h2, fun i c2 hi hne hin => hne (h3 i c2 hi hin)⟩

theorem GetChapter_of_sliceIndex (repo : MangaRepository) (id : Int) (c : ChapterInfo)
    (h : sliceIndex repo.cis id = some c) : repo.GetChapter id = some (c, true) := by
  have hb := sliceIndex_some_bounds _ _ _ h
  simp [MangaRepository.GetChapter, h, hb.1, hb.2]

theorem GetPageByID_of_sliceIndex (repo : MangaRepository) (id : Int) (p : PageInfo)
    (h : sliceIndex repo.pis id = some p) : repo.GetPageByID id = some (p, true) := by
  have hb := sliceIndex_some_bounds _ _ _ h
  simp [MangaRepository.GetPageByID, h, hb.1, hb.2]

/-- C4: in every output of `buildIndex`, every element of every `ChapterIDs`
lies in `[0, len(cis))` and every element of every `PageIDs` lies in
`[0, len(pis))`; on the repository built from the output, `GetChapter`
returns found for every identifier listed by a collection and `GetPageByID`
returns found for every identifier listed by a chapter. -/
theorem buildIndex_refs_valid (fs : FileSystem) (root : String) :
    ∃ r : BuildResult, buildIndex fs root = some r ∧
      (∀ m ∈ r.mis, ∀ id ∈ m.ChapterIDs, 0 ≤ id ∧ id < (r.cis.length : Int)) ∧
      (∀ c ∈ r.cis, ∀ id ∈ c.PageIDs, 0 ≤ id ∧ id < (r.pis.length : Int)) ∧
      (∀ m ∈ r.mis, ∀ id ∈ m.ChapterIDs, ∃ c,
        (NewMangaRepository r.mis r.cis r.pis).GetChapter id = some (c, true)) ∧
      (∀ c ∈ r.cis, ∀ id ∈ c.PageIDs, ∃ p,
        (NewMangaRepository r.mis r.cis r.pis).GetPageByID id = some (p, true)) := by
  obtain ⟨r, hr, hm, hc, hp, hmc, hcp⟩ := buildIndex_wf fs root
  have h1 := (crossref r.mis r.cis MangaInfo.ID MangaInfo.ChapterIDs ChapterInfo.ID
    ChapterInfo.MangaID hm hc hmc).2
  have h2 := (crossref r.cis r.pis ChapterInfo.ID ChapterInfo.PageIDs PageInfo.ID
    PageInfo.ChapterID hc hp hcp).2
  refine ⟨r, hr, ?_, ?_, ?_, ?_⟩
  · intro m hmm id hid
    obtain ⟨c, hs, _⟩ := h1 m hmm id hid
    exact sliceIndex_some_bounds _ _ _ hs
  · intro c hcm id hid
    obtain ⟨p, hs, _⟩ := h2 c hcm id hid
    exact sliceIndex_some_bounds _ _ _ hs
  · intro m hmm id hid
    obtain ⟨c, hs, _⟩ := h1 m hmm id hid
    exact ⟨c, GetChapter_of_sliceIndex (NewMangaRepository r.mis r.cis r.pis) id c hs⟩
  · intro c hcm id hid
    obtain ⟨p, hs, _⟩ := h2 c hcm id hid
    exact ⟨p, GetPageByID_of_sliceIndex (NewMangaRepository r.mis r.cis r.pis) id p hs⟩

theorem parsedDirs_length (fs : FileSystem) (root : String) (infos : List FileInfo) :
    (parsedDirs fs root infos).length = infos.countP (wellFormedDir fs root) := by
  induction infos with
  | nil => rfl
  | cons info rest ih =>
    cases hd : info.IsDir with
    | false => simp [parsedDirs, wellFormedDir, hd, ih]
    | true =>
      cases hp : fs.parseFile (Join [Join [root, info.Name], ".mangainfo"]) with
      | error err => simp [parsedDirs, wellFormedDir, descriptorParses, hd, hp, ih]
      | ok d => simp [parsedDirs, wellFormedDir, descriptorParses, hd, hp, ih]

theorem skippedDirs_length (fs : FileSystem) (root : String) (infos : List FileInfo) :
    (skippedDirs fs root infos).length = infos.countP (malformedDir fs root) := by
  induction infos with
  | nil => rfl
  | cons info rest ih =>
    cases hd : info.IsDir with
    | false => simp [skippedDirs, malformedDir, hd, ih]
    | true =>
      cases hp : fs.parseFile (Join [Join [root, info.Name], ".mangainfo"]) with
      | error err => simp [skippedDirs, malformedDir, descriptorParses, hd, hp, ih]
      | ok d => simp [skippedDirs, malformedDir, descriptorParses, hd, hp, ih]

theorem wellFormedDir_congr (fs fs2 : FileSystem) (root : String)
    (h : fs2.parseFile = fs.parseFile) : wellFormedDir fs2 root = wellFormedDir fs root := by
  funext info
  simp [wellFormedDir, descriptorParses, h]

/-- C5: when the root listing `infos` holds `K` directories whose descriptor
parses and `M` directories whose descriptor is missing or does not parse
(and any other entries), `buildIndex` returns `K` collections and logs `M`
errors; on a permutation `infos2` of the listing (same descriptors) it still
returns `K` collections. In the scenario of directory `A` (two chapters, of
one and two pages) and directory `B` (no descriptor) it returns one
collection with ID 0, chapters with IDs 0, 1, pages with IDs 0, 1, 2, and
logs one error. -/
theorem buildIndex_counts (fs fs2 : FileSystem) (root : String) (infos infos2 : List FileInfo)
    (h : fs.ReadDir root = .ok infos) (h2 : fs2.ReadDir root = .ok infos2)
    (hparse : fs2.parseFile = fs.parseFile) (hperm : infos2.Perm infos) :
    (∃ r : BuildResult, buildIndex fs root = some r ∧
      r.mis.length = infos.countP (wellFormedDir fs root) ∧
      r.logged.length = infos.countP (malformedDir fs root)) ∧
    (∃ r2 : BuildResult, buildIndex fs2 root = some r2 ∧
      r2.mis.length = infos.countP (wellFormedDir fs root)) ∧
    (∃ r : BuildResult, buildIndex scenarioFS "/r" = some r ∧
      r.mis.map MangaInfo.ID = [0] ∧ r.cis.map ChapterInfo.ID = [0, 1] ∧
      r.pis.map PageInfo.ID = [0, 1, 2] ∧ r.logged.length = 1) := by
  refine ⟨⟨_, buildIndex_ok fs root infos h, ?_, ?_⟩, ⟨_, buildIndex_ok fs2 root infos2 h2, ?_⟩,
    ⟨_, buildIndex_ok scenarioFS "/r" _ rfl, ?_⟩⟩
  · simp [indexOf, mangasOf_length, parsedDirs_length]
  · simp [indexOf, skippedDirs_length]
  · simp only [indexOf, mangasOf_length, parsedDirs_length]
    rw [wellFormedDir_congr fs fs2 root hparse]
    exact hperm.countP_eq _
  · decide

/-- C5, at the scenario tree and the same tree listed in the other order:
one collection either way, one logged error. -/
theorem buildIndex_counts_witness :
    (∃ r : BuildResult, buildIndex scenarioFS "/r" = some r ∧ r.mis.length = 1 ∧
      r.logged.length = 1) ∧
    (∃ r2 : BuildResult, buildIndex scenarioFSrev "/r" = some r2 ∧ r2.mis.length = 1) := by
  have h := buildIndex_counts scenarioFS scenarioFSrev "/r"
    [{ Name := "A", IsDir := true }, { Name := "B", IsDir := true }]
    [{ Name := "B", IsDir := true }, { Name := "A", IsDir := true }]
    rfl rfl rfl (List.Perm.swap _ _ _)
  have hk : List.countP (wellFormedDir scenarioFS "/r")
      [{ Name := "A", IsDir := true }, { Name := "B", IsDir := true }] = 1 := by decide
  have hm : List.countP (malformedDir scenarioFS "/r")
      [{ Name := "A", IsDir := true }, { Name := "B", IsDir := true }] = 1 := by decide
  rw [hk, hm] at h
  exact ⟨h.1, h.2.1⟩

theorem sliceIndex_of_bounds {α : Type} (xs : List α) (i : Int)
    (h : 0 ≤ i ∧ i < (xs.length : Int)) :
    ∃ x, xs[i.toNat]? = some x ∧ sliceIndex xs i = some x := by
  have hlt : i.toNat < xs.length := by omega
  exact ⟨xs[i.toNat], List.getElem?_eq_getElem hlt, by simp [sliceIndex, h, hlt]⟩

/-- C6: for every repository and every integer `id`, `GetChapter id` is
(zero `ChapterInfo`, false) when `id < 0` or `id >= len(cis)` and
(`cis[id]`, true) otherwise; `GetPageByID id` is (zero `PageInfo`, false)
when `id < 0` or `id >= len(pis)` and (`pis[id]`, true) otherwise; neither
call panics. -/
theorem GetChapter_GetPageByID_bounds (repo : MangaRepository) (id : Int) :
    ((id < 0 ∨ id ≥ (repo.cis.length : Int)) →
      repo.GetChapter id = some (ChapterInfo.zero, false)) ∧
    ((0 ≤ id ∧ id < (repo.cis.length : Int)) →
      ∃ c, repo.cis[id.toNat]? = some c ∧ repo.GetChapter id = some (c, true)) ∧
    ((id < 0 ∨ id ≥ (repo.pis.length : Int)) →
      repo.GetPageByID id = some (PageInfo.zero, false)) ∧
    ((0 ≤ id ∧ id < (repo.pis.length : Int)) →
      ∃ p, repo.pis[id.toNat]? = some p ∧ repo.GetPageByID id = some (p, true)) ∧
    repo.GetChapter id ≠ none ∧ repo.GetPageByID id ≠ none := by
  have c1 : (id < 0 ∨ id ≥ (repo.cis.length : Int)) →
      repo.GetChapter id = some (ChapterInfo.zero, false) := by
    intro h
    have : ¬ (id ≥ 0 ∧ id < (repo.cis.length : Int)) := by omega
    simp [MangaRepository.GetChapter, this]
  have c2 : (0 ≤ id ∧ id < (repo.cis.length : Int)) →
      ∃ c, repo.cis[id.toNat]? = some c ∧ repo.GetChapter id = some (c, true) := by
    intro h
    obtain ⟨c, hc, hs⟩ := sliceIndex_of_bounds repo.cis id h
    exact ⟨c, hc, GetChapter_of_sliceIndex repo id c hs⟩
  have p1 : (id < 0 ∨ id ≥ (repo.pis.length : Int)) →
      repo.GetPageByID id = some (PageInfo.zero, false) := by
    intro h
    have : ¬ (id ≥ 0 ∧ id < (repo.pis.length : Int)) := by omega
    simp [MangaRepository.GetPageByID, this]
  have p2 : (0 ≤ id ∧ id < (repo.pis.length : Int)) →
      ∃ p, repo.pis[id.toNat]? = some p ∧ repo.GetPageByID id = some (p, true) := by
    intro h
    obtain ⟨p, hp, hs⟩ := sliceIndex_of_bounds repo.pis id h
    exact ⟨p, hp, GetPageByID_of_sliceIndex repo id p hs⟩
  refine ⟨c1, c2, p1, p2, ?_, ?_⟩
  · by_cases h : 0 ≤ id ∧ id < (repo.cis.length : Int)
    · obtain ⟨c, _, hc⟩ := c2 h
      simp [hc]
    · rw [c1 (by omega)]; simp
  · by_cases h : 0 ≤ id ∧ id < (repo.pis.length : Int)
    · obtain ⟨p, _, hp⟩ := p2 h
      simp [hp]
    · rw [p1 (by omega)]; simp

theorem getMangaLoop_found (id : Int) (mis : List MangaInfo) (m : MangaInfo)
    (h : getMangaLoop id mis = (m, true)) :
    ∃ pre post, mis = pre ++ m :: post ∧ m.ID = id ∧ ∀ x ∈ pre, x.ID ≠ id := by
  induction mis with
  | nil => simp [getMangaLoop] at h
  | cons mi rest ih =>
    by_cases he : mi.ID = id
    · simp only [getMangaLoop, he, if_true, Prod.mk.injEq, and_true] at h
      subst h
      exact ⟨[], rest, rfl, he, by simp⟩
    · simp only [getMangaLoop, he, if_false] at h
      obtain ⟨pre, post, h1, h2, h3⟩ := ih h
      refine ⟨mi :: pre, post, by simp [h1], h2, ?_⟩
      intro x hx
      rcases List.mem_cons.mp hx with hx | hx
      · subst hx; exact he
      · exact h3 x hx

theorem getMangaLoop_absent (id : Int) (mis : List MangaInfo)
    (h : ∀ x ∈ mis, x.ID ≠ id) : getMangaLoop id mis = (MangaInfo.zero, false) := by
  induction mis with
  | nil => rfl
  | cons mi rest ih =>
    have he : mi.ID ≠ id := h mi (List.mem_cons_self _ _)
    simp only [getMangaLoop, he, if_false]
    exact ih (fun x hx => h x (List.mem_cons_of_mem _ hx))

theorem getMangaLoop_false (id : Int) (mis : List MangaInfo) (m : MangaInfo)
    (h : getMangaLoop id mis = (m, false)) : m = MangaInfo.zero ∧ ∀ x ∈ mis, x.ID ≠ id := by
  induction mis with
  | nil =>
    simp only [getMangaLoop, Prod.mk.injEq, and_true] at h
    exact ⟨h.symm, by simp⟩
  | cons mi rest ih =>
    by_cases he : mi.ID = id
    · simp [getMangaLoop, he] at h
    · simp only [getMangaLoop, he, if_false] at h
      obtain ⟨h1, h2⟩ := ih h
      refine ⟨h1, ?_⟩
      intro x hx
      rcases List.mem_cons.mp hx with hx | hx
      · subst hx; exact he
      · exact h2 x hx

/-- C7: for every repository, whatever its stored collection list, and every
integer `id`, `GetManga id` does not panic; it returns found exactly when
some stored collection has `ID = id`, and then the entity returned is the
first stored collection with that `ID`; otherwise it returns
(zero `MangaInfo`, false). When the repository holds the two collections of
an index built by `buildIndex`, `GetManga 5` returns (zero `MangaInfo`,
false). -/
theorem GetManga_scan (repo : MangaRepository) (id : Int) :
    (∃ m found, repo.GetManga id = some (m, found) ∧
      (found = true ↔ ∃ x ∈ repo.mis, x.ID = id) ∧
      (found = true → ∃ pre post, repo.mis = pre ++ m :: post ∧ m.ID = id ∧
        ∀ x ∈ pre, x.ID ≠ id) ∧
      (found = false → m = MangaInfo.zero)) ∧
    (∀ (fs : FileSystem) (root : String) (r : BuildResult), buildIndex fs root = some r →
      r.mis.length = 2 → repo = NewMangaRepository r.mis r.cis r.pis →
      repo.GetManga 5 = some (MangaInfo.zero, false)) := by
  constructor
  · cases hres : getMangaLoop id repo.mis with
    | mk m found =>
      refine ⟨m, found, by simp [MangaRepository.GetManga, hres], ?_, ?_, ?_⟩
      · cases found with
        | true =>
          obtain ⟨pre, post, h1, h2, _⟩ := getMangaLoop_found id repo.mis m hres
          simp only [true_iff]
          exact ⟨m, by simp [h1], h2⟩
        | false =>
          have := (getMangaLoop_false id repo.mis m hres).2
          simp only [Bool.false_eq_true, false_iff, not_exists, not_and]
          exact this
      · intro hf
        subst hf
        exact getMangaLoop_found id repo.mis m hres
      · intro hf
        subst hf
        exact (getMangaLoop_false id repo.mis m hres).1
  · intro fs root r hr hlen hrepo
    obtain ⟨r2, hr2, hm, _⟩ := buildIndex_wf fs root
    rw [hr] at hr2
    cases Option.some.inj hr2
    subst hrepo
    simp only [MangaRepository.GetManga, NewMangaRepository]
    rw [getMangaLoop_absent]
    intro x hx
    have hmem : x.ID ∈ r.mis.map MangaInfo.ID := List.mem_map.mpr ⟨x, hx, rfl⟩
    rw [hm, hlen] at hmem
    have := (mem_idRange hmem).2
    omega

/-- C7, on the example tree with two well-formed directories: the index holds
two collections, `GetManga 1` on its repository finds the second one and
`GetManga 5` returns not-found. -/
theorem GetManga_scan_witness :
    (indexOf twoFS "/r" twoListing).mis.length = 2 ∧
      (∃ m, twoRepo.GetManga 1 = some (m, true) ∧ m.Name = "Gamma") ∧
      twoRepo.GetManga 5 = some (MangaInfo.zero, false) :=
  ⟨by decide, ⟨{ ID := 1, Name := "Gamma", ChapterIDs := [] }, by decide, by decide⟩,
    (GetManga_scan twoRepo 5).2 twoFS "/r" (indexOf twoFS "/r" twoListing)
      (buildIndex_ok twoFS "/r" twoListing rfl) (by decide) rfl⟩

/-- C8: when the root directory cannot be listed, `buildIndex` returns the
listing error itself and three empty lists, and logs nothing; the result is
the same whatever `parseFile` would answer, so no directory is examined. -/
theorem buildIndex_root_failure (fs : FileSystem) (root : String) (err : GoError)
    (h : fs.ReadDir root = .error err) :
    buildIndex fs root =
        some { mis := [], cis := [], pis := [], err := some err, logged := [] } ∧
      ∀ parse2 : String → Except GoError mangaInfo,
        buildIndex { ReadDir := fs.ReadDir, parseFile := parse2 } root = buildIndex fs root := by
  refine ⟨buildIndex_error fs root err h, ?_⟩
  intro parse2
  rw [buildIndex_error fs root err h]
  exact buildIndex_error { ReadDir := fs.ReadDir, parseFile := parse2 } root err h

/-- C8, on the example tree: the root `/nowhere` cannot be listed. -/
theorem buildIndex_root_failure_witness :
    buildIndex scenarioFS "/nowhere" =
      some { mis := [], cis := [], pis := [], err := some { msg := "no such directory" },
             logged := [] } :=
  (buildIndex_root_failure scenarioFS "/nowhere" { msg := "no such directory" } rfl).1

/-- C9: `buildIndex` always returns, and the error it returns is non-nil
exactly when the root listing failed; when the listing succeeds the error
is nil whatever the descriptors of the listed directories do. -/
theorem buildIndex_err_iff (fs : FileSystem) (root : String) :
    ∃ r : BuildResult, buildIndex fs root = some r ∧
      (r.err ≠ none ↔ ∃ e, fs.ReadDir root = .error e) ∧
      (∀ infos, fs.ReadDir root = .ok infos → r.err = none) := by
  cases h : fs.ReadDir root with
  | error err =>
    exact ⟨_, buildIndex_error fs root err h, by simp, by simp⟩
  | ok infos =>
    exact ⟨_, buildIndex_ok fs root infos h, by simp [indexOf], by simp [indexOf]⟩

/-! ## Descriptor order in the closed forms -/

theorem getElem?_lt_length {α : Type} (xs : List α) (i : Nat) (x : α) (h : xs[i]? = some x) :
    i < xs.length := by
  by_contra hc
  rw [List.getElem?_eq_none (Nat.le_of_not_lt hc)] at h
  exact Option.noConfusion h

theorem sliceIndex_natCast {α : Type} (xs : List α) (k : Nat) (x : α) (h : xs[k]? = some x) :
    sliceIndex xs (k : Int) = some x := by
  have hlt := getElem?_lt_length xs k x h
  simp [sliceIndex, hlt, h]

theorem pagesOf_order (dir chDir : String) (ciID : Int) (pages : List String) :
    ∀ (base j : Nat) (pg : String), pages[j]? = some pg →
      ∃ p, (pagesOf dir chDir ciID base pages)[j]? = some p ∧ p.Path = Join [dir, chDir, pg] := by
  induction pages with
  | nil => intro base j pg h; simp at h
  | cons pg0 rest ih =>
    intro base j pg h
    cases j with
    | zero =>
      simp only [List.getElem?_cons_zero, Option.some.injEq] at h
      subst h
      exact ⟨{ ID := (base : Int), ChapterID := ciID, Path := Join [dir, chDir, pg0] },
        by simp [pagesOf], rfl⟩
    | succ j =>
      simp only [List.getElem?_cons_succ] at h
      obtain ⟨p, hp, hpath⟩ := ih (base + 1) j pg h
      exact ⟨p, by simpa [pagesOf] using hp, hpath⟩

/-- Chapter `i` of a descriptor, in the chapters and pages one collection
contributes: position `i` among the chapters, and for page `j` a position
`k` among the pages with `PageIDs[j] = pbase + k`. -/
theorem chaptersOf_order (dir : String) (miID : Int) (chs : List chapterInfo) :
    ∀ (cbase pbase i : Nat) (ch : chapterInfo), chs[i]? = some ch →
      ∃ c, (chaptersOf miID cbase pbase chs)[i]? = some c ∧ c.Name = ch.Name ∧
        c.PageIDs.length = ch.Pages.length ∧
        ∀ (j : Nat) (pg : String), ch.Pages[j]? = some pg →
          ∃ (k : Nat) (p : PageInfo), c.PageIDs[j]? = some ((pbase + k : Nat) : Int) ∧
            (chapterPagesOf dir cbase pbase chs)[k]? = some p ∧
            p.Path = Join [dir, ch.Dir, pg] := by
  induction chs with
  | nil => intro cbase pbase i ch h; simp at h
  | cons ch0 rest ih =>
    intro cbase pbase i ch h
    cases i with
    | zero =>
      simp only [List.getElem?_cons_zero, Option.some.injEq] at h
      subst h
      refine ⟨{ ID := (cbase : Int), MangaID := miID, Name := ch0.Name,
                PageIDs := idRange pbase ch0.Pages.length },
        by simp [chaptersOf], rfl, by simp [idRange_length], ?_⟩
      intro j pg hj
      have hlt := getElem?_lt_length _ _ _ hj
      obtain ⟨p, hp, hpath⟩ := pagesOf_order dir ch0.Dir (cbase : Int) ch0.Pages pbase j pg hj
      refine ⟨j, p, by simp [idRange_getElem?, hlt], ?_, hpath⟩
      have hlt2 : j < (pagesOf dir ch0.Dir (cbase : Int) pbase ch0.Pages).length := by
        rw [pagesOf_length]; exact hlt
      simp only [chapterPagesOf]
      rw [List.getElem?_append_left hlt2]
      exact hp
    | succ i =>
      simp only [List.getElem?_cons_succ] at h
      obtain ⟨c, hc, hname, hlen, hpages⟩ := ih (cbase + 1) (pbase + ch0.Pages.length) i ch h
      refine ⟨c, by simpa [chaptersOf] using hc, hname, hlen, ?_⟩
      intro j pg hj
      obtain ⟨k, p, hk, hp, hpath⟩ := hpages j pg hj
      refine ⟨ch0.Pages.length + k, p, ?_, ?_, hpath⟩
      · rw [hk, Nat.add_assoc]
      · simp only [chapterPagesOf]
        rw [List.getElem?_append_right (by rw [pagesOf_length]; omega)]
        simpa [pagesOf_length] using hp

/-- Parsed directory `n`, in what `dirsLoop` contributes: position `n` among
the collections, for chapter `i` a position `k` among the chapters with
`ChapterIDs[i] = cbase + k`, and for page `j` of that chapter a position `l`
among the pages with `PageIDs[j] = pbase + l`. -/
theorem mangasOf_order (root : String) (nds : List (String × mangaInfo)) :
    ∀ (mbase cbase pbase n : Nat) (name : String) (d : mangaInfo), nds[n]? = some (name, d) →
      ∃ m, (mangasOf mbase cbase nds)[n]? = some m ∧ m.Name = d.Name ∧
        m.ChapterIDs.length = d.Chapters.length ∧
        ∀ (i : Nat) (ch : chapterInfo), d.Chapters[i]? = some ch →
          ∃ (k : Nat) (c : ChapterInfo), m.ChapterIDs[i]? = some ((cbase + k : Nat) : Int) ∧
            (allChaptersOf mbase cbase pbase nds)[k]? = some c ∧ c.Name = ch.Name ∧
            c.PageIDs.length = ch.Pages.length ∧
            ∀ (j : Nat) (pg : String), ch.Pages[j]? = some pg →
              ∃ (l : Nat) (p : PageInfo), c.PageIDs[j]? = some ((pbase + l : Nat) : Int) ∧
                (allPagesOf root cbase pbase nds)[l]? = some p ∧
                p.Path = Join [Join [root, name], ch.Dir, pg] := by
  induction nds with
  | nil => intro mbase cbase pbase n name d h; simp at h
  | cons nd rest ih =>
    intro mbase cbase pbase n name d h
    cases n with
    | zero =>
      simp only [List.getElem?_cons_zero, Option.some.injEq] at h
      subst h
      refine ⟨{ ID := (mbase : Int), Name := d.Name,
                ChapterIDs := idRange cbase d.Chapters.length },
        by simp [mangasOf], rfl, by simp [idRange_length], ?_⟩
      intro i ch hi
      have hlt := getElem?_lt_length _ _ _ hi
      obtain ⟨c, hc, hname, hlen, hpages⟩ :=
        chaptersOf_order (Join [root, name]) (mbase : Int) d.Chapters cbase pbase i ch hi
      refine ⟨i, c, by simp [idRange_getElem?, hlt], ?_, hname, hlen, ?_⟩
      · simp only [allChaptersOf]
        rw [List.getElem?_append_left (by rw [chaptersOf_length]; exact hlt)]
        exact hc
      · intro j pg hj
        obtain ⟨l, p, hl, hp, hpath⟩ := hpages j pg hj
        refine ⟨l, p, hl, ?_, hpath⟩
        have hlt2 := getElem?_lt_length _ _ _ hp
        simp only [allPagesOf]
        rw [List.getElem?_append_left hlt2]
        exact hp
    | succ n =>
      simp only [List.getElem?_cons_succ] at h
      obtain ⟨m, hm, hname, hlen, hchs⟩ :=
        ih (mbase + 1) (cbase + nd.2.Chapters.length) (pbase + totalPages nd.2.Chapters)
          n name d h
      refine ⟨m, by simpa [mangasOf] using hm, hname, hlen, ?_⟩
      intro i ch hi
      obtain ⟨k, c, hk, hc, hcname, hclen, hpages⟩ := hchs i ch hi
      refine ⟨nd.2.Chapters.length + k, c, ?_, ?_, hcname, hclen, ?_⟩
      · rw [hk, Nat.add_assoc]
      · simp only [allChaptersOf]
        rw [List.getElem?_append_right (by rw [chaptersOf_length]; omega)]
        simpa [chaptersOf_length] using hc
      · intro j pg hj
        obtain ⟨l, p, hl, hp, hpath⟩ := hpages j pg hj
        refine ⟨totalPages nd.2.Chapters + l, p, ?_, ?_, hpath⟩
        · rw [hl, Nat.add_assoc]
        · simp only [allPagesOf]
          rw [List.getElem?_append_right (by rw [chapterPagesOf_length]; omega)]
          simpa [chapterPagesOf_length] using hp

/-- C10: descriptor order is preserved. When the root listing succeeds and
the `n`-th directory of the listing whose descriptor parses is `name` with
descriptor `d`, then `mis[n]` has `Name = d.Name` and as many `ChapterIDs` as
`d` has chapters; for every `i`, `cis[mis[n].ChapterIDs[i]]` has the name and
the number of pages of `d.Chapters[i]`; and for every `j` the page
`pis[PageIDs[j]]` of that chapter has
`Path = Join(root, name, d.Chapters[i].Dir, d.Chapters[i].Pages[j])`. -/
theorem buildIndex_descriptor_order (fs : FileSystem) (root : String) (infos : List FileInfo)
    (h : fs.ReadDir root = .ok infos) :
    ∃ r : BuildResult, buildIndex fs root = some r ∧
      ∀ (n : Nat) (name : String) (d : mangaInfo),
        (parsedDirs fs root infos)[n]? = some (name, d) →
        ∃ m, r.mis[n]? = some m ∧ m.Name = d.Name ∧
          m.ChapterIDs.length = d.Chapters.length ∧
          ∀ (i : Nat) (ch : chapterInfo), d.Chapters[i]? = some ch →
            ∃ (cid : Int) (c : ChapterInfo), m.ChapterIDs[i]? = some cid ∧
              sliceIndex r.cis cid = some c ∧ c.Name = ch.Name ∧
              c.PageIDs.length = ch.Pages.length ∧
              ∀ (j : Nat) (pg : String), ch.Pages[j]? = some pg →
                ∃ (pid : Int) (p : PageInfo), c.PageIDs[j]? = some pid ∧
                  sliceIndex r.pis pid = some p ∧
                  p.Path = Join [root, name, ch.Dir, pg] := by
  refine ⟨_, buildIndex_ok fs root infos h, ?_⟩
  intro n name d hn
  obtain ⟨m, hm, hname, hlen, hchs⟩ :=
    mangasOf_order root (parsedDirs fs root infos) 0 0 0 n name d hn
  refine ⟨m, hm, hname, hlen, ?_⟩
  intro i ch hi
  obtain ⟨k, c, hk, hc, hcname, hclen, hpages⟩ := hchs i ch hi
  refine ⟨_, c, hk, ?_, hcname, hclen, ?_⟩
  · rw [Nat.zero_add]; exact sliceIndex_natCast _ k c hc
  · intro j pg hj
    obtain ⟨l, p, hl, hp, hpath⟩ := hpages j pg hj
    refine ⟨_, p, hl, ?_, ?_⟩
    · rw [Nat.zero_add]; exact sliceIndex_natCast _ l p hp
    · rw [hpath, Join_nested]

/-- C10, on the scenario tree: the only parsed directory is `A`; collection 0
carries its name and two chapter identifiers, and the three pages carry the
paths of the descriptor in declaration order. -/
theorem buildIndex_descriptor_order_witness :
    ∃ r : BuildResult, buildIndex scenarioFS "/r" = some r ∧
      (∃ m, r.mis[0]? = some m ∧ m.Name = "Alpha" ∧ m.ChapterIDs.length = 2) ∧
      r.pis.map PageInfo.Path = ["/r/A/c1/1.png", "/r/A/c2/1.png", "/r/A/c2/2.png"] := by
  obtain ⟨r, hr, hall⟩ := buildIndex_descriptor_order scenarioFS "/r" scenarioListing rfl
  obtain ⟨m, hm, hname, hlen, _⟩ := hall 0 "A" descriptorA (by decide)
  refine ⟨r, hr, ⟨m, hm, hname, hlen⟩, ?_⟩
  have hidx : r = indexOf scenarioFS "/r" scenarioListing := by
    have h2 := buildIndex_ok scenarioFS "/r" scenarioListing rfl
    rw [hr] at h2
    exact Option.some.inj h2
  subst hidx
  decide

/-! ## Skipped entries -/

theorem parsedDirs_filter (fs fs2 : FileSystem) (root : String) (infos : List FileInfo)
    (hparse : fs2.parseFile = fs.parseFile) :
    parsedDirs fs2 root (infos.filter (wellFormedDir fs root)) = parsedDirs fs root infos := by
  induction infos with
  | nil => rfl
  | cons info rest ih =>
    cases hd : info.IsDir with
    | false => simp [List.filter, parsedDirs, wellFormedDir, hd, ih]
    | true =>
      cases hp : fs.parseFile (Join [Join [root, info.Name], ".mangainfo"]) with
      | error err =>
        simp [List.filter, parsedDirs, wellFormedDir, descriptorParses, hd, hp, ih]
      | ok d =>
        simp [List.filter, parsedDirs, wellFormedDir, descriptorParses, hd, hp, hparse, ih]

/-- C14: skipped entries leave no trace. The collections, chapters and pages
`buildIndex` returns for a listing are those it returns for the listing
with every non-directory entry and every directory whose descriptor is
missing or does not parse removed (same descriptors otherwise). -/
theorem buildIndex_skips_leave_no_trace (fs fs2 : FileSystem) (root : String)
    (infos : List FileInfo) (h : fs.ReadDir root = .ok infos)
    (h2 : fs2.ReadDir root = .ok (infos.filter (wellFormedDir fs root)))
    (hparse : fs2.parseFile = fs.parseFile) :
    ∃ r r2 : BuildResult, buildIndex fs root = some r ∧ buildIndex fs2 root = some r2 ∧
      r2.mis = r.mis ∧ r2.cis = r.cis ∧ r2.pis = r.pis := by
  refine ⟨_, _, buildIndex_ok fs root infos h, buildIndex_ok fs2 root _ h2, ?_, ?_, ?_⟩ <;>
    simp only [indexOf, parsedDirs_filter fs fs2 root infos hparse]

/-- C14, on the scenario tree: with directory `B` (no descriptor) removed
from the listing the index is the same, one collection and three pages. -/
theorem buildIndex_skips_leave_no_trace_witness :
    ∃ r r2 : BuildResult, buildIndex scenarioFS "/r" = some r ∧
      buildIndex (treeWith [{ Name := "A", IsDir := true }]) "/r" = some r2 ∧
      r2.mis = r.mis ∧ r2.cis = r.cis ∧ r2.pis = r.pis :=
  buildIndex_skips_leave_no_trace scenarioFS (treeWith [{ Name := "A", IsDir := true }]) "/r"
    scenarioListing rfl rfl rfl

/-! ## Linear scan and direct indexing -/

theorem getMangaLoop_in_range (mis : List MangaInfo)
    (h : mis.map MangaInfo.ID = idRange 0 mis.length) (id : Int)
    (hb : 0 ≤ id ∧ id < (mis.length : Int)) :
    ∃ m, mis[id.toNat]? = some m ∧ getMangaLoop id mis = (m, true) := by
  obtain ⟨x, hx, _⟩ := sliceIndex_of_bounds mis id hb
  have hxid : x.ID = id := by
    rw [id_eq_position MangaInfo.ID mis h id.toNat x hx]
    omega
  have hxm : x ∈ mis := List.mem_iff_getElem?.mpr ⟨_, hx⟩
  refine ⟨x, hx, ?_⟩
  cases hres : getMangaLoop id mis with
  | mk m found =>
    cases found with
    | true =>
      obtain ⟨pre, post, h1, h2, _⟩ := getMangaLoop_found id mis m hres
      have hmm : m ∈ mis := by rw [h1]; simp
      have e1 := sliceIndex_id MangaInfo.ID mis h m hmm
      have e2 := sliceIndex_id MangaInfo.ID mis h x hxm
      rw [h2] at e1
      rw [hxid, e1] at e2
      rw [Option.some.inj e2]
    | false =>
      exact absurd hxid ((getMangaLoop_false id mis m hres).2 x hxm)

theorem getMangaLoop_out_of_range (mis : List MangaInfo)
    (h : mis.map MangaInfo.ID = idRange 0 mis.length) (id : Int)
    (hb : ¬ (0 ≤ id ∧ id < (mis.length : Int))) :
    getMangaLoop id mis = (MangaInfo.zero, false) := by
  apply getMangaLoop_absent
  intro x hx he
  have hmem : x.ID ∈ mis.map MangaInfo.ID := List.mem_map.mpr ⟨x, hx, rfl⟩
  rw [h] at hmem
  have := mem_idRange hmem
  apply hb
  rw [← he]
  constructor <;> omega

/-- C17: on the repository built from any output of `buildIndex`, for every
integer `id`, `GetManga id` is (`mis[id]`, true) when `0 <= id < len(mis)`
and (zero `MangaInfo`, false) otherwise. -/
theorem GetManga_eq_index (fs : FileSystem) (root : String) :
    ∃ r : BuildResult, buildIndex fs root = some r ∧ ∀ id : Int,
      ((0 ≤ id ∧ id < (r.mis.length : Int)) →
        ∃ m, r.mis[id.toNat]? = some m ∧
          (NewMangaRepository r.mis r.cis r.pis).GetManga id = some (m, true)) ∧
      (¬ (0 ≤ id ∧ id < (r.mis.length : Int)) →
        (NewMangaRepository r.mis r.cis r.pis).GetManga id =
          some (MangaInfo.zero, false)) := by
  obtain ⟨r, hr, hm, _⟩ := buildIndex_wf fs root
  refine ⟨r, hr, fun id => ⟨?_, ?_⟩⟩
  · intro hb
    obtain ⟨m, h1, h2⟩ := getMangaLoop_in_range r.mis hm id hb
    exact ⟨m, h1, by simp [MangaRepository.GetManga, NewMangaRepository, h2]⟩
  · intro hb
    simp [MangaRepository.GetManga, NewMangaRepository,
      getMangaLoop_out_of_range r.mis hm id hb]

/-! ## Contiguous ranges -/

/-- When the cross-reference lists of a list of entities, read in order,
make up `base, base + 1, ...`, the list of entity `n` is the range that
starts after the lists of the entities before it. -/
theorem range_of_flatMap {α : Type} (f : α → List Int) (xs : List α) :
    ∀ (base total n : Nat) (x : α), xs.flatMap f = idRange base total → xs[n]? = some x →
      f x = idRange (base + ((xs.take n).map (fun y => (f y).length)).sum) (f x).length := by
  induction xs with
  | nil => intro base total n x _ hx; simp at hx
  | cons y ys ih =>
    intro base total n x h hx
    have hlen : (f y).length + (ys.flatMap f).length = total := by
      have := congrArg List.length h
      simpa [idRange_length] using this
    rw [← hlen, idRange_add, List.flatMap_cons] at h
    obtain ⟨h1, h2⟩ := List.append_inj h (by simp [idRange_length])
    cases n with
    | zero =>
      simp only [List.getElem?_cons_zero, Option.some.injEq] at hx
      subst hx
      simpa using h1
    | succ n =>
      simp only [List.getElem?_cons_succ] at hx
      have := ih (base + (f y).length) _ n x h2 hx
      simpa [Nat.add_assoc] using this

theorem totalChapters_eq_sum (nds : List (String × mangaInfo)) :
    totalChapters nds = (nds.map (fun nd => nd.2.Chapters.length)).sum := by
  induction nds with
  | nil => rfl
  | cons nd rest ih => simp [totalChapters, ih]

theorem totalPages_eq_sum (chs : List chapterInfo) :
    totalPages chs = (chs.map (fun ch => ch.Pages.length)).sum := by
  induction chs with
  | nil => rfl
  | cons ch rest ih => simp [totalPages, ih]

theorem totalPagesAll_eq_sum (nds : List (String × mangaInfo)) :
    totalPagesAll nds =
      (nds.map (fun nd => (nd.2.Chapters.map (fun ch => ch.Pages.length)).sum)).sum := by
  induction nds with
  | nil => rfl
  | cons nd rest ih => simp [totalPagesAll, ih, totalPages_eq_sum]

theorem flatMap_of_pairs {P C : Type} (ps : List P) (cs : List C) (pid : P → Int)
    (kids : P → List Int) (cid owner : C → Int)
    (hpairs : ps.flatMap (fun p => (kids p).map (fun id => (id, pid p))) =
      cs.map (fun c => (cid c, owner c))) :
    ps.flatMap kids = cs.map cid := by
  have := congrArg (List.map Prod.fst) hpairs
  simpa [List.map_flatMap, Function.comp_def] using this

/-- C18: in every output of `buildIndex`, the `ChapterIDs` of collection `n`
are the consecutive identifiers starting at the number of chapters of
collections `0..n-1`, and the `PageIDs` of chapter `k` are the consecutive
identifiers starting at the number of pages of chapters `0..k-1`; when the
root listing succeeds, `len(cis)` is the sum of the chapter counts of the
parsed descriptors and `len(pis)` the sum of their page counts. -/
theorem buildIndex_contiguous (fs : FileSystem) (root : String) :
    ∃ r : BuildResult, buildIndex fs root = some r ∧
      (∀ (n : Nat) (m : MangaInfo), r.mis[n]? = some m →
        m.ChapterIDs =
          (List.range' ((r.mis.take n).map (fun x => x.ChapterIDs.length)).sum
            m.ChapterIDs.length).map Int.ofNat) ∧
      (∀ (k : Nat) (c : ChapterInfo), r.cis[k]? = some c →
        c.PageIDs =
          (List.range' ((r.cis.take k).map (fun x => x.PageIDs.length)).sum
            c.PageIDs.length).map Int.ofNat) ∧
      (∀ infos : List FileInfo, fs.ReadDir root = .ok infos →
        r.cis.length = ((parsedDirs fs root infos).map (fun nd => nd.2.Chapters.length)).sum ∧
        r.pis.length =
          ((parsedDirs fs root infos).map
            (fun nd => (nd.2.Chapters.map (fun ch => ch.Pages.length)).sum)).sum) := by
  obtain ⟨r, hr, _, hc, hp, hmc, hcp⟩ := buildIndex_wf fs root
  have hf1 := flatMap_of_pairs r.mis r.cis MangaInfo.ID MangaInfo.ChapterIDs ChapterInfo.ID
    ChapterInfo.MangaID hmc
  have hf2 := flatMap_of_pairs r.cis r.pis ChapterInfo.ID ChapterInfo.PageIDs PageInfo.ID
    PageInfo.ChapterID hcp
  rw [hc] at hf1
  rw [hp] at hf2
  refine ⟨r, hr, ?_, ?_, ?_⟩
  · intro n m hn
    have := range_of_flatMap MangaInfo.ChapterIDs r.mis 0 _ n m hf1 hn
    rw [Nat.zero_add] at this
    exact this
  · intro k c hk
    have := range_of_flatMap ChapterInfo.PageIDs r.cis 0 _ k c hf2 hk
    rw [Nat.zero_add] at this
    exact this
  · intro infos hinfos
    have h2 := buildIndex_ok fs root infos hinfos
    rw [hr] at h2
    cases Option.some.inj h2
    simp only [indexOf, allChaptersOf_length, allPagesOf_length, totalChapters_eq_sum,
      totalPagesAll_eq_sum, and_self]

/-! ## The chapter handler -/

/-- C15 fails on the code. On the scenario index (collection 0 owns chapters
0 and 1), `handleChapter 1` looks up `GetManga(chapter.ID) = GetManga(1)`,
which is not found, and renders the zero `MangaInfo`; the owning collection
`GetManga(chapter.MangaID) = GetManga(0)` is found and is `Alpha`. -/
theorem handleChapter_wrong_collection :
    buildIndex scenarioFS "/r" = some (indexOf scenarioFS "/r" scenarioListing) ∧
      scenarioRepo.GetChapter 1 =
        some ({ ID := 1, MangaID := 0, Name := "two", PageIDs := [1, 2] }, true) ∧
      (App.mk scenarioRepo).handleChapter 1 =
        some (Response.chapterPage MangaInfo.zero
          { ID := 1, MangaID := 0, Name := "two", PageIDs := [1, 2] }) ∧
      scenarioRepo.GetManga 1 = some (MangaInfo.zero, false) ∧
      scenarioRepo.GetManga 0 =
        some ({ ID := 0, Name := "Alpha", ChapterIDs := [0, 1] }, true) :=
  ⟨buildIndex_ok scenarioFS "/r" scenarioListing rfl, by decide, by decide, by decide,
    by decide⟩

/-! ## Absolute paths -/

/-- C13 fails on the code. With the default root `.` and directory `A`, the
stored paths are `A/c1/1.png`, `A/c2/1.png`, `A/c2/2.png`: each is
`Join(root, dirName, chapterDir, page)`, and none is absolute. -/
theorem buildIndex_relative_paths :
    ∃ r : BuildResult, buildIndex relativeFS "." = some r ∧
      r.pis.map PageInfo.Path = ["A/c1/1.png", "A/c2/1.png", "A/c2/2.png"] ∧
      r.pis.map (fun p => IsAbs p.Path) = [false, false, false] ∧
      Join [".", "A", "c1", "1.png"] = "A/c1/1.png" :=
  ⟨_, buildIndex_ok relativeFS "." _ rfl, by decide, by decide, by decide⟩

/-! ## Path prefixes -/

theorem cleanElems_named (rooted : Bool) (st : Nat × List (List Char))
    (hinv : cleanInv rooted st) :
    ∀ e ∈ cleanElems st, (!(e == [] || e == ['.'])) = true := by
  intro e he
  rcases List.mem_append.mp he with h | h
  · rw [(List.mem_replicate.mp h).2]; decide
  · have hp := hinv.2 e (List.mem_reverse.mp h)
    simp [hp.1, hp.2.1]

/-- The elements of the text of the output buffer are the elements of the
buffer. -/
theorem pathElems_render (rooted : Bool) (st : Nat × List (List Char))
    (hinv : cleanInv rooted st) : pathElems (cleanRender rooted st) = cleanElems st := by
  have hnamed := cleanElems_named rooted st hinv
  have hns := cleanElems_noslash rooted st hinv
  cases hel : cleanElems st with
  | nil =>
    cases rooted with
    | true => simp [pathElems, cleanRender, hel, joinSlash, splitSlash]
    | false => simp [pathElems, cleanRender, hel, splitSlash]
  | cons e0 es =>
    rw [hel] at hnamed hns
    have hsplit := splitSlash_joinSlash e0 es hns
    have hfilter : (e0 :: es).filter (fun e => !(e == [] || e == ['.'])) = e0 :: es :=
      List.filter_eq_self.mpr hnamed
    cases rooted with
    | true =>
      have hr : cleanRender true st = '/' :: joinSlash (e0 :: es) := by
        simp [cleanRender, hel]
      have hs : splitSlash ('/' :: joinSlash (e0 :: es)) = [] :: e0 :: es := by
        simp [splitSlash, hsplit]
      rw [pathElems, hr, hs, List.filter_cons]
      simpa using hfilter
    | false =>
      have hr : cleanRender false st = joinSlash (e0 :: es) := by
        simp [cleanRender, hel]
      rw [pathElems, hr, hsplit]
      exact hfilter

/-- Without `..` among the elements scanned, the scan only writes. -/
theorem cleanFold_no_dotdot (rooted : Bool) (es : List (List Char)) :
    ∀ st : Nat × List (List Char), ['.', '.'] ∉ es →
      ∃ extra, es.foldl (cleanStep rooted) st = (st.1, extra ++ st.2) := by
  induction es with
  | nil => intro st _; exact ⟨[], rfl⟩
  | cons e rest ih =>
    intro st hes
    have he : e ≠ ['.', '.'] := fun h => hes (by simp [h])
    have hrest : ['.', '.'] ∉ rest := fun h => hes (List.mem_cons_of_mem _ h)
    simp only [List.foldl_cons]
    by_cases h1 : e = []
    · have hstep : cleanStep rooted st e = st := by simp [cleanStep, h1]
      rw [hstep]; exact ih st hrest
    · by_cases h2 : e = ['.']
      · have hstep : cleanStep rooted st e = st := by simp [cleanStep, h2]
        rw [hstep]; exact ih st hrest
      · have hstep : cleanStep rooted st e = (st.1, e :: st.2) := by
          simp [cleanStep, h1, h2, he]
        rw [hstep]
        obtain ⟨extra, hx⟩ := ih (st.1, e :: st.2) hrest
        exact ⟨extra ++ [e], by rw [hx]; simp⟩

/-- Go: when `y` has no `..` element, `Clean(x + "/" + y)` has `Clean(x)` as
a path prefix, for a non-empty `x`. -/
theorem cleanChars_extend (x y : List Char) (hx : x ≠ [])
    (hy : ['.', '.'] ∉ splitSlash y) :
    isRooted (cleanChars x) = isRooted (cleanChars (x ++ '/' :: y)) ∧
      pathElems (cleanChars x) <+: pathElems (cleanChars (x ++ '/' :: y)) := by
  have hinv : cleanInv (isRooted x) ((splitSlash x).foldl (cleanStep (isRooted x)) (0, [])) :=
    cleanFold_inv _ _ _ (cleanInv_init _) (splitSlash_noslash x)
  have hr2 : isRooted (x ++ '/' :: y) = isRooted x := by
    cases x with
    | nil => exact absurd rfl hx
    | cons c cs => simp [isRooted]
  have hn2 : x ++ '/' :: y ≠ [] := by simp
  obtain ⟨extra, hextra⟩ := cleanFold_no_dotdot (isRooted x) (splitSlash y)
    ((splitSlash x).foldl (cleanStep (isRooted x)) (0, [])) hy
  have hinv2 := cleanFold_inv (isRooted x) (splitSlash y) _ hinv (splitSlash_noslash y)
  rw [cleanChars_of_ne_nil x hx, cleanChars_of_ne_nil _ hn2, hr2, splitSlash_append,
    List.foldl_append]
  rw [cleanRender_isRooted _ _ hinv, cleanRender_isRooted _ _ hinv2,
    pathElems_render _ _ hinv, pathElems_render _ _ hinv2, hextra]
  refine ⟨rfl, ?_⟩
  simp only [cleanElems, List.reverse_append, ← List.append_assoc]
  exact List.prefix_append _ _

theorem joinChars_inside (a b c p : List Char) (hab : a ≠ [] ∨ b ≠ [])
    (hc : ['.', '.'] ∉ splitSlash c) (hp : ['.', '.'] ∉ splitSlash p) :
    isRooted (joinChars [a, b]) = isRooted (joinChars [joinChars [a, b], c, p]) ∧
      pathElems (joinChars [a, b]) <+: pathElems (joinChars [joinChars [a, b], c, p]) := by
  have hy : ['.', '.'] ∉ splitSlash (c ++ '/' :: p) := by
    rw [splitSlash_append]
    intro h
    rcases List.mem_append.mp h with h | h
    · exact hc h
    · exact hp h
  by_cases ha : a = []
  · have hb : b ≠ [] := hab.resolve_left (fun h => h ha)
    subst ha
    have h1 : joinChars [[], b] = cleanChars b := by simp [joinChars, hb, joinSlash]
    have hne := cleanChars_ne_nil b
    have h2 : joinChars [cleanChars b, c, p] = cleanChars (b ++ '/' :: (c ++ '/' :: p)) := by
      simp only [joinChars, List.dropWhile, hne, decide_False, joinSlash]
      exact cleanChars_prefix b (c ++ '/' :: p) hb
    rw [h1, h2]
    exact cleanChars_extend b _ hb hy
  · have h1 : joinChars [a, b] = cleanChars (a ++ '/' :: b) := by
      simp [joinChars, ha, joinSlash]
    have hne := cleanChars_ne_nil (a ++ '/' :: b)
    have h2 : joinChars [cleanChars (a ++ '/' :: b), c, p] =
        cleanChars ((a ++ '/' :: b) ++ '/' :: (c ++ '/' :: p)) := by
      simp only [joinChars, List.dropWhile, hne, decide_False, joinSlash]
      exact cleanChars_prefix (a ++ '/' :: b) (c ++ '/' :: p) (by simp)
    rw [h1, h2]
    exact cleanChars_extend _ _ (by simp) hy

theorem data_ne_nil (x : String) (h : x ≠ "") : x.data ≠ [] := by
  intro hd
  apply h
  cases x with
  | mk data =>
    simp only at hd
    subst hd
    rfl

/-- Go: `Join(Join(root, name), dir, page)` has `Join(root, name)` as a path
prefix when `root` and `name` are not both empty and `dir` and `page` have no
`..` element. -/
theorem Join_inside (root name dir page : String) (hne : root ≠ "" ∨ name ≠ "")
    (hdir : ['.', '.'] ∉ splitSlash dir.data) (hpage : ['.', '.'] ∉ splitSlash page.data) :
    hasPathPrefix (Join [root, name]) (Join [Join [root, name], dir, page]) = true := by
  have hab : root.data ≠ [] ∨ name.data ≠ [] :=
    hne.imp (data_ne_nil root) (data_ne_nil name)
  obtain ⟨h1, h2⟩ := joinChars_inside root.data name.data dir.data page.data hab hdir hpage
  simp only [hasPathPrefix, Join, List.map, Bool.and_eq_true, beq_iff_eq]
  exact ⟨h1, List.isPrefixOf_iff_prefix.mpr h2⟩

/-- C16 fails on the code. With root `/r`, directory `A`, chapter sub-path
`../../etc` and page `passwd`, the path `buildIndex` stores is
`Join(Join("/r", "A"), "../../etc", "passwd") = "/etc/passwd"`, which does
not have the collection directory `/r/A` as a path prefix. -/
theorem page_path_escapes :
    (∃ r : BuildResult, buildIndex escapeFS "/r" = some r ∧
      r.pis.map PageInfo.Path = [Join [Join ["/r", "A"], "../../etc", "passwd"]]) ∧
    Join ["/r", "A"] = "/r/A" ∧
    Join [Join ["/r", "A"], "../../etc", "passwd"] = "/etc/passwd" ∧
    hasPathPrefix (Join ["/r", "A"]) (Join [Join ["/r", "A"], "../../etc", "passwd"]) = false :=
  ⟨⟨_, buildIndex_ok escapeFS "/r" _ rfl, by decide⟩, by decide, by decide, by decide⟩

/-- C16, amended: when the root listing succeeds, for the `n`-th parsed
directory `name` (`root` and `name` not both empty), its chapter `i` and
that chapter's page `j`, if neither the chapter sub-path nor the page file
name has a `..` element,
then the page `buildIndex` stores for them has
`Path = Join(Join(root, name), dir, page)` and that path has the collection
directory `Join(root, name)` as a path prefix. -/
theorem buildIndex_paths_inside (fs : FileSystem) (root : String) (infos : List FileInfo)
    (h : fs.ReadDir root = .ok infos) :
    ∃ r : BuildResult, buildIndex fs root = some r ∧
      ∀ (n : Nat) (name : String) (d : mangaInfo),
        (parsedDirs fs root infos)[n]? = some (name, d) → (root ≠ "" ∨ name ≠ "") →
        ∀ (i : Nat) (ch : chapterInfo), d.Chapters[i]? = some ch →
          ['.', '.'] ∉ splitSlash ch.Dir.data →
          ∀ (j : Nat) (pg : String), ch.Pages[j]? = some pg →
            ['.', '.'] ∉ splitSlash pg.data →
            ∃ (m : MangaInfo) (cid : Int) (c : ChapterInfo) (pid : Int) (p : PageInfo),
              r.mis[n]? = some m ∧ m.ChapterIDs[i]? = some cid ∧
              sliceIndex r.cis cid = some c ∧ c.PageIDs[j]? = some pid ∧
              sliceIndex r.pis pid = some p ∧
              p.Path = Join [Join [root, name], ch.Dir, pg] ∧
              hasPathPrefix (Join [root, name]) p.Path = true := by
  refine ⟨_, buildIndex_ok fs root infos h, ?_⟩
  intro n name d hn hname i ch hi hdir j pg hj hpage
  obtain ⟨m, hm, _, _, hchs⟩ :=
    mangasOf_order root (parsedDirs fs root infos) 0 0 0 n name d hn
  obtain ⟨k, c, hk, hc, _, _, hpages⟩ := hchs i ch hi
  obtain ⟨l, p, hl, hp, hpath⟩ := hpages j pg hj
  refine ⟨m, _, c, _, p, hm, hk, ?_, hl, ?_, hpath, ?_⟩
  · rw [Nat.zero_add]; exact sliceIndex_natCast _ k c hc
  · rw [Nat.zero_add]; exact sliceIndex_natCast _ l p hp
  · rw [hpath]; exact Join_inside root name ch.Dir pg hname hdir hpage

/-- C16 amended, on the scenario tree: the second page of the second chapter
of directory `A` is stored with a path inside `/r/A`. -/
theorem buildIndex_paths_inside_witness :
    ∃ (r : BuildResult) (pid : Int) (p : PageInfo), buildIndex scenarioFS "/r" = some r ∧
      sliceIndex r.pis pid = some p ∧ p.Path = Join [Join ["/r", "A"], "c2", "2.png"] ∧
      hasPathPrefix (Join ["/r", "A"]) p.Path = true := by
  obtain ⟨r, hr, hall⟩ := buildIndex_paths_inside scenarioFS "/r" scenarioListing rfl
  obtain ⟨_, _, _, pid, p, _, _, _, _, hp, hpath, hin⟩ :=
    hall 0 "A" descriptorA (by decide) (by decide) 1
      { Name := "two", Dir := "c2", Pages := ["1.png", "2.png"] } (by decide) (by decide)
      1 "2.png" (by decide) (by decide)
  exact ⟨r, pid, p, hr, hp, hpath, hin⟩

/-! ## `GetAllMangas` in memory -/

theorem scenarioMemory_observe : observe scenarioMemory scenarioRepoCell = scenarioRepo := by
  decide

theorem copyCells_same_length (dst src : List MangaCell) (h : dst.length = src.length) :
    copyCells dst src = src := by
  simp [copyCells, h]

theorem cells_length (m : Memory) (s : SliceHeader) (hv : validHeader m.mangas s) :
    (m.cells s).length = s.len := by
  simp only [Memory.cells, List.length_take]
  exact Nat.min_eq_left hv.2

theorem getD_append_singleton_left {α : Type} (arrays : List (List α)) (x : List α) (a : Nat)
    (h : a < arrays.length) : (arrays ++ [x]).getD a [] = arrays.getD a [] := by
  simp [List.getD_eq_getElem?_getD, List.getElem?_append_left h]

theorem getD_append_singleton_length {α : Type} (arrays : List (List α)) (x : List α) :
    (arrays ++ [x]).getD arrays.length [] = x := by
  simp [List.getD_eq_getElem?_getD]

/-- The call does not touch the `[]int` arrays. -/
theorem GetAllMangas_ints (repo : RepositoryCell) (m : Memory) :
    (repo.GetAllMangas m).2.ints = m.ints := rfl

/-- The call adds one `[]MangaInfo` array. -/
theorem GetAllMangas_mangas_length (repo : RepositoryCell) (m : Memory) :
    (repo.GetAllMangas m).2.mangas.length = m.mangas.length + 1 := by
  simp [RepositoryCell.GetAllMangas]

/-- The call leaves every allocated `[]MangaInfo` array as it was. -/
theorem GetAllMangas_old_cells (repo : RepositoryCell) (m : Memory) (s : SliceHeader)
    (h : s.arr < m.mangas.length) : (repo.GetAllMangas m).2.cells s = m.cells s := by
  simp only [Memory.cells, RepositoryCell.GetAllMangas]
  rw [getD_append_singleton_left _ _ _ h]

/-- The slice returned holds the cells of `repo.mis`. -/
theorem GetAllMangas_new_cells (repo : RepositoryCell) (m : Memory)
    (hv : validHeader m.mangas repo.mis) :
    (repo.GetAllMangas m).2.cells (repo.GetAllMangas m).1 = m.cells repo.mis := by
  have hlen := cells_length m repo.mis hv
  simp only [Memory.cells, RepositoryCell.GetAllMangas]
  rw [getD_append_singleton_length, copyCells_same_length _ _ (by
    simp only [List.length_replicate]; exact hlen.symm)]
  apply List.take_of_length_le
  exact Nat.le_of_eq hlen

theorem readManga_congr (m m2 : Memory) (h : m2.ints = m.ints) (c : MangaCell) :
    m2.readManga c = m.readManga c := by
  simp [Memory.readManga, Memory.readInts, h]

theorem readChapter_congr (m m2 : Memory) (h : m2.ints = m.ints) (c : ChapterCell) :
    m2.readChapter c = m.readChapter c := by
  simp [Memory.readChapter, Memory.readInts, h]

theorem readMangas_congr (m m2 : Memory) (s s2 : SliceHeader) (hi : m2.ints = m.ints)
    (hc : m2.cells s2 = m.cells s) : m2.readMangas s2 = m.readMangas s := by
  simp only [Memory.readMangas, hc]
  exact List.map_congr_left (fun c _ => readManga_congr m m2 hi c)

theorem observe_congr (m m2 : Memory) (repo : RepositoryCell) (hi : m2.ints = m.ints)
    (hc : m2.cells repo.mis = m.cells repo.mis) : observe m2 repo = observe m repo := by
  simp only [observe, readMangas_congr m m2 repo.mis repo.mis hi hc]
  congr 1
  exact List.map_congr_left (fun c _ => readChapter_congr m m2 hi c)

theorem GetAllMangas_valid (repo : RepositoryCell) (m : Memory) (s : SliceHeader)
    (hv : validHeader m.mangas s) : validHeader (repo.GetAllMangas m).2.mangas s := by
  refine ⟨?_, ?_⟩
  · rw [GetAllMangas_mangas_length]; exact Nat.lt_succ_of_lt hv.1
  · simp only [RepositoryCell.GetAllMangas]
    rw [getD_append_singleton_left _ _ _ hv.1]
    exact hv.2

/-- C11: for every repository in memory (with a valid `mis`), the slice
`GetAllMangas` returns has the length and, element by element and in order,
the values of the stored collection list; the call leaves the collections,
chapters and pages of the repository unchanged; and after a second call
the two results have equal contents and the repository is still
unchanged. -/
theorem GetAllMangas_copy (repo : RepositoryCell) (m : Memory)
    (hv : validHeader m.mangas repo.mis) :
    (repo.GetAllMangas m).2.readMangas (repo.GetAllMangas m).1 = (observe m repo).mis ∧
    (repo.GetAllMangas m).1.len = (observe m repo).mis.length ∧
    observe (repo.GetAllMangas m).2 repo = observe m repo ∧
    (repo.GetAllMangas (repo.GetAllMangas m).2).2.readMangas
        (repo.GetAllMangas (repo.GetAllMangas m).2).1 =
      (repo.GetAllMangas (repo.GetAllMangas m).2).2.readMangas (repo.GetAllMangas m).1 ∧
    observe (repo.GetAllMangas (repo.GetAllMangas m).2).2 repo = observe m repo := by
  have hv1 := GetAllMangas_valid repo m repo.mis hv
  have hnew : (repo.GetAllMangas m).1.arr < (repo.GetAllMangas m).2.mangas.length := by
    rw [GetAllMangas_mangas_length]; exact Nat.lt_succ_self _
  have h1 : (repo.GetAllMangas m).2.readMangas (repo.GetAllMangas m).1 =
      m.readMangas repo.mis :=
    readMangas_congr m _ _ _ (GetAllMangas_ints repo m) (GetAllMangas_new_cells repo m hv)
  have h3 : observe (repo.GetAllMangas m).2 repo = observe m repo :=
    observe_congr m _ repo (GetAllMangas_ints repo m) (GetAllMangas_old_cells repo m _ hv.1)
  refine ⟨h1, ?_, h3, ?_, ?_⟩
  · simp only [observe, Memory.readMangas, List.length_map, cells_length m repo.mis hv]
    rfl
  · rw [readMangas_congr (repo.GetAllMangas m).2 _ _ _ (GetAllMangas_ints repo _)
        (GetAllMangas_new_cells repo _ hv1),
      readMangas_congr (repo.GetAllMangas m).2 _ (repo.GetAllMangas m).1 _
        (GetAllMangas_ints repo _) (GetAllMangas_old_cells repo _ _ hnew), h1]
    exact congrArg MangaRepository.mis h3
  · rw [observe_congr (repo.GetAllMangas m).2 _ repo (GetAllMangas_ints repo _)
      (GetAllMangas_old_cells repo _ _ hv1.1), h3]

/-- C11, on the scenario repository in memory: the slice returned reads as
the one stored collection, `Alpha` with chapters 0 and 1. -/
theorem GetAllMangas_copy_witness :
    (scenarioRepoCell.GetAllMangas scenarioMemory).2.readMangas
        (scenarioRepoCell.GetAllMangas scenarioMemory).1 =
      [{ ID := 0, Name := "Alpha", ChapterIDs := [0, 1] }] ∧
    observe (scenarioRepoCell.GetAllMangas scenarioMemory).2 scenarioRepoCell = scenarioRepo := by
  have h := GetAllMangas_copy scenarioRepoCell scenarioMemory ⟨by decide, by decide⟩
  rw [scenarioMemory_observe] at h
  exact ⟨h.1, h.2.2.1⟩

/-! ## Writing through the result of `GetAllMangas` -/

/-- Statement `all[i] = c` changes the array of `all` and nothing else. -/
theorem setElem_frame (m m2 : Memory) (all : SliceHeader) (i : Nat) (c : MangaCell)
    (h : m.setElem all i c = some m2) :
    m2.ints = m.ints ∧ m2.mangas.length = m.mangas.length ∧
      ∀ a, a ≠ all.arr → m2.mangas.getD a [] = m.mangas.getD a [] := by
  unfold Memory.setElem at h
  by_cases hi : i < all.len
  · simp only [hi, if_true, Option.some.injEq] at h
    subst h
    refine ⟨rfl, by simp, ?_⟩
    intro a ha
    simp [List.getD_eq_getElem?_getD, List.getElem?_set_ne (Ne.symm ha)]
  · simp [hi] at h

theorem setElems_frame (all : SliceHeader) (writes : List (Nat × MangaCell)) :
    ∀ (m m2 : Memory), m.setElems all writes = some m2 →
      m2.ints = m.ints ∧ m2.mangas.length = m.mangas.length ∧
        ∀ a, a ≠ all.arr → m2.mangas.getD a [] = m.mangas.getD a [] := by
  induction writes with
  | nil =>
    intro m m2 h
    simp only [Memory.setElems, Option.some.injEq] at h
    subst h
    exact ⟨rfl, rfl, fun _ _ => rfl⟩
  | cons w rest ih =>
    intro m m2 h
    obtain ⟨i, c⟩ := w
    simp only [Memory.setElems] at h
    cases h1 : m.setElem all i c with
    | none => simp [h1] at h
    | some m1 =>
      simp only [h1] at h
      obtain ⟨a1, a2, a3⟩ := setElem_frame m m1 all i c h1
      obtain ⟨b1, b2, b3⟩ := ih m1 m2 h
      exact ⟨b1.trans a1, b2.trans a2, fun a ha => (b3 a ha).trans (a3 a ha)⟩

theorem cells_of_getD (m m2 : Memory) (s : SliceHeader)
    (h : m2.mangas.getD s.arr [] = m.mangas.getD s.arr []) : m2.cells s = m.cells s := by
  unfold Memory.cells
  rw [h]

/-- C12, amended: the slice `GetAllMangas` returns is a fresh array of copies
of the stored `MangaInfo` values. For every repository in memory (with a
valid `mis`), two calls returning `all` and `all2`, and every sequence of
statements `all[i] = c` that runs without panic (this covers assigning a field
of an element and reordering), what the repository holds afterwards is what
it held before the calls, the contents of `all2` are unchanged, and a later
call of `GetAllMangas` returns the stored collection list; likewise when the
statements write `all2`. Writing an element of a returned `ChapterIDs` is
left out. -/
theorem GetAllMangas_fresh (repo : RepositoryCell) (m : Memory)
    (hv : validHeader m.mangas repo.mis) (writes : List (Nat × MangaCell)) :
    (∀ m3 : Memory,
      (repo.GetAllMangas (repo.GetAllMangas m).2).2.setElems (repo.GetAllMangas m).1 writes =
        some m3 →
      observe m3 repo = observe m repo ∧
      m3.readMangas (repo.GetAllMangas (repo.GetAllMangas m).2).1 =
        (repo.GetAllMangas (repo.GetAllMangas m).2).2.readMangas
          (repo.GetAllMangas (repo.GetAllMangas m).2).1 ∧
      (repo.GetAllMangas m3).2.readMangas (repo.GetAllMangas m3).1 = (observe m repo).mis) ∧
    (∀ m3 : Memory,
      (repo.GetAllMangas (repo.GetAllMangas m).2).2.setElems
        (repo.GetAllMangas (repo.GetAllMangas m).2).1 writes = some m3 →
      observe m3 repo = observe m repo ∧
      m3.readMangas (repo.GetAllMangas m).1 =
        (repo.GetAllMangas (repo.GetAllMangas m).2).2.readMangas (repo.GetAllMangas m).1 ∧
      (repo.GetAllMangas m3).2.readMangas (repo.GetAllMangas m3).1 = (observe m repo).mis) := by
  have hv1 := GetAllMangas_valid repo m repo.mis hv
  have hv2 := GetAllMangas_valid repo _ repo.mis hv1
  have hobs2 : observe (repo.GetAllMangas (repo.GetAllMangas m).2).2 repo = observe m repo := by
    rw [observe_congr (repo.GetAllMangas m).2 _ repo (GetAllMangas_ints repo _)
      (GetAllMangas_old_cells repo _ _ hv1.1)]
    exact observe_congr m _ repo (GetAllMangas_ints repo m)
      (GetAllMangas_old_cells repo m _ hv.1)
  have ha1 : (repo.GetAllMangas m).1.arr = m.mangas.length := rfl
  have ha2 : (repo.GetAllMangas (repo.GetAllMangas m).2).1.arr = m.mangas.length + 1 := by
    show (repo.GetAllMangas m).2.mangas.length = _
    exact GetAllMangas_mangas_length repo m
  have hrepo : repo.mis.arr < m.mangas.length := hv.1
  have key : ∀ (target other : SliceHeader) (m3 : Memory),
      (repo.GetAllMangas (repo.GetAllMangas m).2).2.setElems target writes = some m3 →
      repo.mis.arr ≠ target.arr → other.arr ≠ target.arr →
      observe m3 repo = observe m repo ∧
      m3.readMangas other = (repo.GetAllMangas (repo.GetAllMangas m).2).2.readMangas other ∧
      (repo.GetAllMangas m3).2.readMangas (repo.GetAllMangas m3).1 = (observe m repo).mis := by
    intro target other m3 h hne1 hne2
    obtain ⟨f1, f2, f3⟩ := setElems_frame target writes _ m3 h
    have hobs3 : observe m3 repo = observe m repo := by
      rw [observe_congr _ m3 repo f1 (cells_of_getD _ m3 repo.mis (f3 _ hne1))]
      exact hobs2
    have hv3 : validHeader m3.mangas repo.mis := by
      refine ⟨by rw [f2]; exact hv2.1, ?_⟩
      rw [f3 _ hne1]; exact hv2.2
    refine ⟨hobs3, readMangas_congr _ m3 other other f1 (cells_of_getD _ m3 other (f3 _ hne2)),
      ?_⟩
    rw [readMangas_congr m3 _ _ _ (GetAllMangas_ints repo m3)
      (GetAllMangas_new_cells repo m3 hv3)]
    exact congrArg MangaRepository.mis hobs3
  constructor
  · intro m3 h
    exact key _ _ m3 h (by rw [ha1]; omega) (by rw [ha1, ha2]; omega)
  · intro m3 h
    exact key _ _ m3 h (by rw [ha2]; omega) (by rw [ha1, ha2]; omega)

/-- C12 amended, on the scenario repository: after two calls, the statement
`all[0] = MangaInfo{ID: 7, Name: "Zeta", ...}` on the first result changes
that result and leaves the repository as `scenarioRepo`. -/
theorem GetAllMangas_fresh_witness :
    (scenarioRepoCell.GetAllMangas (scenarioRepoCell.GetAllMangas scenarioMemory).2).2.setElems
        (scenarioRepoCell.GetAllMangas scenarioMemory).1
        [(0, { ID := 7, Name := "Zeta", ChapterIDs := { arr := 1, len := 1 } })] =
      some scenarioMemoryAfterSet ∧
    scenarioMemoryAfterSet.readMangas (scenarioRepoCell.GetAllMangas scenarioMemory).1 =
      [{ ID := 7, Name := "Zeta", ChapterIDs := [0] }] ∧
    observe scenarioMemoryAfterSet scenarioRepoCell = scenarioRepo := by
  refine ⟨by decide, by decide, ?_⟩
  have h := ((GetAllMangas_fresh scenarioRepoCell scenarioMemory ⟨by decide, by decide⟩
    [(0, { ID := 7, Name := "Zeta", ChapterIDs := { arr := 1, len := 1 } })]).1
    scenarioMemoryAfterSet (by decide)).1
  rw [scenarioMemory_observe] at h
  exact h

/-- C12 fails on the code. On the scenario repository, a caller of
`GetAllMangas` that runs `all[0].ChapterIDs[0] = 99` on the result changes
what the repository returns: `GetManga 0` had `ChapterIDs = [0, 1]` and has
`[99, 1]` afterwards, and so has the result of a later `GetAllMangas`. -/
theorem GetAllMangas_shares_ChapterIDs :
    (scenarioRepoCell.GetAllMangas scenarioMemory).2.setChapterID
        (scenarioRepoCell.GetAllMangas scenarioMemory).1 0 0 99 =
      some scenarioMemoryAfterWrite ∧
    (observe (scenarioRepoCell.GetAllMangas scenarioMemory).2 scenarioRepoCell).GetManga 0 =
      some ({ ID := 0, Name := "Alpha", ChapterIDs := [0, 1] }, true) ∧
    (observe scenarioMemoryAfterWrite scenarioRepoCell).GetManga 0 =
      some ({ ID := 0, Name := "Alpha", ChapterIDs := [99, 1] }, true) ∧
    (scenarioRepoCell.GetAllMangas scenarioMemoryAfterWrite).2.readMangas
        (scenarioRepoCell.GetAllMangas scenarioMemoryAfterWrite).1 =
      [{ ID := 0, Name := "Alpha", ChapterIDs := [99, 1] }] ∧
    observe scenarioMemoryAfterWrite scenarioRepoCell ≠
      observe (scenarioRepoCell.GetAllMangas scenarioMemory).2 scenarioRepoCell := by
  refine ⟨by decide, by decide, by decide, by decide, by decide⟩

end AsonMaser
